import Mathlib

/-!
Verification of the brainfuck interpreter in `src/main.rs` (crate `stupidfuck`).

The whole program lives in one Rust file.  Its pipeline is:
lexer (the first `for` loop in `main`), instruction folder (the second loop,
building `new_inst`), jump resolver (the third loop, rewriting `Open`/`Close`
payloads in place), and the execution `while` loop.

Modelling conventions used throughout this file:
* `usize` values are modelled as `Nat`.  The one place where `usize`
  subtraction can underflow during a run (`dec_data`, and `pos -= 1` in
  `rev_ofset`) is modelled as a fallible operation returning `Option`,
  reflecting the overflow-checked debug-build semantics in which the process
  aborts (panics); `none` models that abort.
* `u8` values are modelled as `Nat` with wrapping arithmetic written as
  explicit `% 256` operations (`wadd8`, `wsub8`).
* Indexing a `Vec` out of bounds panics in Rust; such reads are modelled with
  `List.get?`, and a `none` result propagates as `none` (abort) in the step
  functions.
* `stdout` is modelled as the list of raw bytes written.  `print!("{}", b as
  char)` writes the UTF-8 encoding of the Unicode code point `b`, which is
  the single byte `b` when `b < 128` and a two-byte sequence otherwise;
  `utf8Enc` models this.
* `stdin` is modelled as a list of read results: `some b` is a successful
  one-byte read, `none` is a read that fails with an I/O error.  End of the
  list is end-of-stream.
-/

/-- The `Token` enum from the source, with `usize` payloads as `Nat` and the
`u8` payloads of `Incriment`/`Decriment` as `Nat` (values kept below 256 by
the wrapping arithmetic that produces them). -/
inductive Token where
  | Right (n : Nat)
  | Left (n : Nat)
  | Incriment (n : Nat)
  | Decriment (n : Nat)
  | Open (n : Nat)
  | Close (n : Nat)
  | Input
  | Output
deriving DecidableEq, Repr

/-- The `State` struct from the source: data pointer, program counter, RAM,
instruction list, and `last`, the token count recorded by the lexer. -/
structure State where
  memptr : Nat
  instptr : Nat
  memory : List Nat
  inst : List Token
  last : Nat
deriving DecidableEq, Repr

/-- Wrapping `u8` addition (`u8::wrapping_add`) on the `Nat` model. -/
def wadd8 (x y : Nat) : Nat := (x + y) % 256

/-- Wrapping `u8` subtraction (`u8::wrapping_sub`) on the `Nat` model. -/
def wsub8 (x y : Nat) : Nat := (x + 256 - y % 256) % 256

/-- The body of the tape-growth loop in `inc_data`: `k` successive
`memory.push(0)` calls. -/
def pushZeros (mem : List Nat) : Nat → List Nat
  | 0 => mem
  | k + 1 => pushZeros (mem ++ [0]) k

/-- `inc_data`: move the data pointer right by `amount`; if it now points at
or past the end of memory, push zero cells until index `memptr` exists
(the source loop `for _i in 0..=state.memptr-state.memory.len()` runs
`memptr - len + 1` times). -/
def inc_data (s : State) (amount : Nat) : State :=
  let m := s.memptr + amount
  if m ≥ s.memory.length then
    { s with memptr := m, memory := pushZeros s.memory (m - s.memory.length + 1) }
  else
    { s with memptr := m }

/-- The net effect of `inc_data`'s growth check on the tape: extend with
zero cells so that index `p` exists, if needed. -/
def grow (mem : List Nat) (p : Nat) : List Nat :=
  if p ≥ mem.length then mem ++ List.replicate (p + 1 - mem.length) 0 else mem

/-- `dec_data`: `state.memptr -= amount`.  Checked `usize` subtraction: on
underflow the process aborts, modelled by `none`. -/
def dec_data (s : State) (amount : Nat) : Option State :=
  if amount ≤ s.memptr then some { s with memptr := s.memptr - amount } else none

/-- `incbyte`: wrapping-add `amount` to the cell at the data pointer.  An
out-of-bounds data pointer is an indexing panic, modelled by `none`. -/
def incbyte (s : State) (amount : Nat) : Option State :=
  match s.memory[s.memptr]? with
  | some v => some { s with memory := s.memory.set s.memptr (wadd8 v amount) }
  | none => none

/-- `decbyte`: wrapping-subtract `amount` from the cell at the data pointer. -/
def decbyte (s : State) (amount : Nat) : Option State :=
  match s.memory[s.memptr]? with
  | some v => some { s with memory := s.memory.set s.memptr (wsub8 v amount) }
  | none => none

/-- `jump_forward`: set the program counter to `pos`. -/
def jump_forward (s : State) (pos : Nat) : State := { s with instptr := pos }

/-- `jump_rev`: set the program counter to `pos`. -/
def jump_rev (s : State) (pos : Nat) : State := { s with instptr := pos }

/-- UTF-8 encoding of the Unicode code point `v` for `v < 256`: what
`print!("{}", v as char)` writes to stdout. -/
def utf8Enc (v : Nat) : List Nat :=
  if v < 128 then [v] else [192 + v / 64, 128 + v % 64]

/-- A machine configuration: the interpreter `State` together with the
modelled stdin (pending read results) and stdout (bytes written so far). -/
structure Config where
  st : State
  inp : List (Option Nat)
  out : List Nat
deriving DecidableEq, Repr

/-- `outbyte`: `print!("{}", state.memory[state.memptr] as char)` appends the
UTF-8 encoding of the cell value to stdout. -/
def outbyte (c : Config) : Option Config :=
  match c.st.memory[c.st.memptr]? with
  | some v => some { c with out := c.out ++ utf8Enc v }
  | none => none

/-- The value stored by `inbyte`: the result of
`.next().and_then(|result| result.ok()).unwrap_or(0)` — 0 on end-of-stream
(`None`) and on a failed read (`Some(Err)`), the byte itself otherwise. -/
def inVal : Option (Option Nat) → Nat
  | none => 0
  | some none => 0
  | some (some b) => b

/-- `inbyte` body, continued: take one result from stdin; end-of-stream or an
`Err` read yields 0; store the value at the data pointer. -/
def inbyte (c : Config) : Option Config :=
  match c.st.memory[c.st.memptr]? with
  | some _ =>
    some { c with
            st := { c.st with memory := c.st.memory.set c.st.memptr (inVal c.inp.head?) },
            inp := c.inp.tail }
  | none => none

/-- One byte of the lexer `match`: the eight operator characters produce a
token, everything else is skipped. -/
def lexByte : Nat → Option Token
  | 62 => some (.Right 1)
  | 60 => some (.Left 1)
  | 43 => some (.Incriment 1)
  | 45 => some (.Decriment 1)
  | 46 => some .Output
  | 44 => some .Input
  | 91 => some (.Open 1)
  | 93 => some (.Close 1)
  | _ => none

/-- The lexer loop: push a token per recognized byte, skip the rest. -/
def lex (src : List Nat) : List Token := src.filterMap lexByte

/-- The `State` as it stands after the lexer loop, `program.last = curr` and
`program.memory.push(0)` in `main`. -/
def afterLex (src : List Nat) : State :=
  { memptr := 0, instptr := 0, memory := [0], inst := lex src,
    last := (lex src).length }

/-- One iteration of the instruction-folder loop: merge a `Right`, `Left`,
`Incriment` or `Decriment` token into an identical token at the end of
`new_inst` (bumping its count, with `u8::wrapping_add` for the arithmetic
tokens), push a fresh unit token otherwise; all other tokens are pushed
unchanged. -/
def foldStep (acc : List Token) (t : Token) : List Token :=
  match t with
  | .Right _ =>
    match acc.getLast? with
    | some (.Right b) => acc.set (acc.length - 1) (.Right (b + 1))
    | some _ => acc ++ [.Right 1]
    | none => acc ++ [.Right 1]
  | .Left _ =>
    match acc.getLast? with
    | some (.Left b) => acc.set (acc.length - 1) (.Left (b + 1))
    | some _ => acc ++ [.Left 1]
    | none => acc ++ [.Left 1]
  | .Incriment _ =>
    match acc.getLast? with
    | some (.Incriment b) => acc.set (acc.length - 1) (.Incriment (wadd8 b 1))
    | some _ => acc ++ [.Incriment 1]
    | none => acc ++ [.Incriment 1]
  | .Decriment _ =>
    match acc.getLast? with
    | some (.Decriment b) => acc.set (acc.length - 1) (.Decriment (wadd8 b 1))
    | some _ => acc ++ [.Decriment 1]
    | none => acc ++ [.Decriment 1]
  | t => acc ++ [t]

/-- The instruction-folder loop (`for i in 0..program.last` over
`program.inst`, which has exactly `program.last` elements, building
`new_inst`). -/
def foldInst (l : List Token) : List Token := l.foldl foldStep []

/-- Level update of the forward bracket scan in `forward_ofset`. -/
def fwd_level (lvl : Nat) (t : Token) : Nat :=
  match t with
  | .Open _ => lvl + 1
  | .Close _ => lvl - 1
  | _ => lvl

/-- Level update of the backward bracket scan in `rev_ofset`. -/
def rev_level (lvl : Nat) (t : Token) : Nat :=
  match t with
  | .Open _ => lvl - 1
  | .Close _ => lvl + 1
  | _ => lvl

/-- The `while local_level != 0` loop of `forward_ofset`, recursing over the
instruction suffix after the current position: each iteration does
`pos += 1` and inspects `inst[pos]`; running off the end of the program is
the out-of-bounds indexing panic, modelled by `none`. -/
def fwdGo (rem : List Token) (lvl : Nat) (pos : Nat) : Option Nat :=
  if lvl = 0 then some pos
  else
    match rem with
    | [] => none
    | t :: rest => fwdGo rest (fwd_level lvl t) (pos + 1)

/-- `forward_ofset`: find the position of the matching `]` by a forward scan
starting just after `pos` with nesting level 1.  (The Rust function takes
`&mut State` but only reads `state.inst`.) -/
def forward_ofset (l : List Token) (pos : Nat) : Option Nat :=
  fwdGo (l.drop (pos + 1)) 1 pos

/-- The `while local_level != 0` loop of `rev_ofset`: each iteration does
`pos -= 1` (checked `usize` subtraction: underflow aborts, modelled by
`none`) and inspects `inst[pos]`. -/
def revGo (l : List Token) (lvl : Nat) (pos : Nat) : Option Nat :=
  if lvl = 0 then some pos
  else
    match pos with
    | 0 => none
    | p + 1 =>
      match l[p]? with
      | none => none
      | some t => revGo l (rev_level lvl t) p

/-- `rev_ofset`: find the position of the matching `[` by a backward scan
starting with nesting level 1. -/
def rev_ofset (l : List Token) (pos : Nat) : Option Nat := revGo l 1 pos

/-- One iteration of the jump-resolver loop at index `i`: rewrite an `Open`
or `Close` token's payload to the position of its matching partner, leave
everything else alone. -/
def resolveStep (cur : List Token) (i : Nat) : Option (List Token) :=
  match cur[i]? with
  | some (.Open _) =>
    match forward_ofset cur i with
    | some pos => some (cur.set i (.Open pos))
    | none => none
  | some (.Close _) =>
    match rev_ofset cur i with
    | some pos => some (cur.set i (.Close pos))
    | none => none
  | _ => some cur

/-- The jump-resolver loop (`for i in 0..program.inst.len()`), mutating the
instruction list in place; `k` counts the remaining iterations (the list
length never changes, so the iteration count fixed at entry stays equal to
the remaining indices). -/
def resolveGo (cur : List Token) (i : Nat) : Nat → Option (List Token)
  | 0 => some cur
  | k + 1 =>
    match resolveStep cur i with
    | some cur' => resolveGo cur' (i + 1) k
    | none => none

/-- The whole jump-resolver pass. -/
def resolveInst (l : List Token) : Option (List Token) := resolveGo l 0 l.length

/-- Everything `main` does before the execution loop: lexer, folder (which
replaces `program.inst` but not `program.last`), jump resolver.  `none`
models a panic during resolution. -/
def loadProgram (src : List Nat) : Option State :=
  let s1 := afterLex src
  let s2 := { s1 with inst := foldInst s1.inst }
  (resolveInst s2.inst).map (fun r => { s2 with inst := r })

/-- `program.instptr += 1` at the bottom of the execution loop. -/
def advance (s : State) : State := { s with instptr := s.instptr + 1 }

/-- One iteration of the execution `while` loop: dispatch on the current
token, then advance the program counter — except that a taken `Close`
branch executes `continue` and so does not advance.  `none` is a panic
inside the iteration. -/
def step (c : Config) : Option Config :=
  match c.st.inst[c.st.instptr]? with
  | none => none
  | some t =>
    match t with
    | .Right a => some { c with st := advance (inc_data c.st a) }
    | .Left a => (dec_data c.st a).map (fun s => { c with st := advance s })
    | .Incriment a => (incbyte c.st a).map (fun s => { c with st := advance s })
    | .Decriment a => (decbyte c.st a).map (fun s => { c with st := advance s })
    | .Output => (outbyte c).map (fun c2 => { c2 with st := advance c2.st })
    | .Input => (inbyte c).map (fun c2 => { c2 with st := advance c2.st })
    | .Open a =>
      match c.st.memory[c.st.memptr]? with
      | none => none
      | some v =>
        if v = 0 then some { c with st := advance (jump_forward c.st a) }
        else some { c with st := advance c.st }
    | .Close a =>
      match c.st.memory[c.st.memptr]? with
      | none => none
      | some v =>
        if v = 0 then some { c with st := advance c.st }
        else some { c with st := jump_rev c.st a }

/-- Run `n` iterations of the execution loop, requiring the loop guard
`instptr < inst.len()` to hold before each one; `none` if a panic occurs or
the loop guard fails before the `n` iterations are done. -/
def steps : Nat → Config → Option Config
  | 0, c => some c
  | n + 1, c =>
    if c.st.instptr < c.st.inst.length then
      match step c with
      | some c' => steps n c'
      | none => none
    else none

/-- Outcome of running the execution loop with bounded fuel. -/
inductive RunRes where
  | halted (c : Config)
  | panicked
  | outOfFuel (c : Config)
deriving DecidableEq, Repr

/-- The execution `while` loop with fuel: stops normally when
`instptr ≥ inst.len()`, aborts when an iteration panics. -/
def run : Nat → Config → RunRes
  | 0, c => .outOfFuel c
  | n + 1, c =>
    if c.st.instptr < c.st.inst.length then
      match step c with
      | some c' => run n c'
      | none => .panicked
    else .halted c

/-- The configuration at the top of the execution loop for a loaded program
and a given stdin. -/
def initConfig (s : State) (inp : List (Option Nat)) : Config :=
  { st := s, inp := inp, out := [] }

/-- The run from `c` terminates normally in configuration `r`. -/
def Halts (c r : Config) : Prop := ∃ n, run n c = .halted r

/-- Bracket weight of a token: `Open` opens, `Close` closes, everything else
is neutral. -/
def wt : Token → Int
  | .Open _ => 1
  | .Close _ => -1
  | _ => 0

/-- Nesting height before position `k`: the sum of bracket weights of the
first `k` tokens. -/
def hgt (l : List Token) (k : Nat) : Int := ((l.take k).map wt).sum

/-- The program's brackets are balanced: total height 0 and no prefix dips
below 0. -/
def BalancedProg (l : List Token) : Prop :=
  hgt l l.length = 0 ∧ ∀ k, k ≤ l.length → 0 ≤ hgt l k

instance (l : List Token) : Decidable (BalancedProg l) := by
  unfold BalancedProg
  infer_instance

/-- Constructor discriminant of a token (the bracket scans and the resolver
dispatch only on this). -/
def tok_tag : Token → Nat
  | .Right _ => 0
  | .Left _ => 1
  | .Incriment _ => 2
  | .Decriment _ => 3
  | .Open _ => 4
  | .Close _ => 5
  | .Input => 6
  | .Output => 7

/-- A folded token paired with the length of the source run it stands for:
the payload of a mover token is the run length, the payload of an
arithmetic token is the run length reduced mod 256 by the folder's
`u8::wrapping_add` accumulation, and a pass-through token stands for
itself alone. -/
def GoodPair : Token × Nat → Prop
  | (.Right m, n) => m = n ∧ 1 ≤ n
  | (.Left m, n) => m = n ∧ 1 ≤ n
  | (.Incriment m, n) => m = n % 256 ∧ 1 ≤ n
  | (.Decriment m, n) => m = n % 256 ∧ 1 ≤ n
  | (_, n) => n = 1

/-- The run of unit tokens a folded token stands for. -/
def unfoldTok : Token × Nat → List Token
  | (.Right _, n) => List.replicate n (.Right 1)
  | (.Left _, n) => List.replicate n (.Left 1)
  | (.Incriment _, n) => List.replicate n (.Incriment 1)
  | (.Decriment _, n) => List.replicate n (.Decriment 1)
  | (t, _) => [t]

/-- The unfolded token list of a block decomposition. -/
def uOf (ds : List (Token × Nat)) : List Token := (ds.map unfoldTok).flatten

/-- Start position of block `b` in the unfolded token list. -/
def blkStart (ds : List (Token × Nat)) (b : Nat) : Nat :=
  (((ds.take b).map unfoldTok).map List.length).sum

/-- Mover and arithmetic tokens carry count 1 (as the lexer produces them). -/
def UnitTok : Token → Prop
  | .Right n => n = 1
  | .Left n => n = 1
  | .Incriment n => n = 1
  | .Decriment n => n = 1
  | _ => True

/-- What one finished resolver iteration guarantees at index `n`, relative to
the list `cur` it ran on: bracket payloads hold the scan results, other
positions are untouched. -/
def ResolvedAt (cur r : List Token) (n : Nat) : Prop :=
  (∀ a, cur[n]? = some (.Open a) →
    ∃ j, forward_ofset cur n = some j ∧ r[n]? = some (.Open j)) ∧
    (∀ a, cur[n]? = some (.Close a) →
      ∃ j, rev_ofset cur n = some j ∧ r[n]? = some (.Close j)) ∧
    ((∀ a, cur[n]? ≠ some (.Open a)) → (∀ a, cur[n]? ≠ some (.Close a)) →
      r[n]? = cur[n]?)

/-- Both bracket scans succeed wherever `cur` has a bracket. -/
def ScansOK (cur : List Token) : Prop :=
  ∀ n, (∀ a, cur[n]? = some (.Open a) → (forward_ofset cur n).isSome) ∧
    (∀ a, cur[n]? = some (.Close a) → (rev_ofset cur n).isSome)

/-- Simulation relation between a run of the unfolded resolved program `ru`
and a run of the folded resolved program `rf`, where `ds` decomposes the
folded program into the runs it came from: identical I/O and tape, and the
folded program counter sits at a block whose start the unfolded program
counter sits at. -/
def SimRel (ds : List (Token × Nat)) (ru rf : List Token) (cu cf : Config) : Prop :=
  cu.inp = cf.inp ∧ cu.out = cf.out ∧ cu.st.memptr = cf.st.memptr ∧
    cu.st.memory = cf.st.memory ∧ cu.st.inst = ru ∧ cf.st.inst = rf ∧
    ∃ b, b ≤ ds.length ∧ cf.st.instptr = b ∧ cu.st.instptr = blkStart ds b

/-! Basic facts about the model. -/

theorem pushZeros_eq (mem : List Nat) (k : Nat) :
    pushZeros mem k = mem ++ List.replicate k 0 := by
  induction k generalizing mem with
  | zero => simp [pushZeros]
  | succ k ih =>
    rw [pushZeros, ih, List.append_assoc]
    simp [List.replicate_succ]

theorem hgt_zero (l : List Token) : hgt l 0 = 0 := by simp [hgt]

theorem hgt_succ (l : List Token) (k : Nat) (t : Token) (h : l[k]? = some t) :
    hgt l (k + 1) = hgt l k + wt t := by
  unfold hgt
  rw [List.take_succ, h]
  simp

theorem wt_mem_range (t : Token) : wt t = -1 ∨ wt t = 0 ∨ wt t = 1 := by
  cases t <;> simp [wt]

theorem drop_cons {l : List Token} {n : Nat} {t : Token} {rest : List Token}
    (h : l.drop n = t :: rest) : l[n]? = some t ∧ rest = l.drop (n + 1) := by
  constructor
  · have h0 : (l.drop n)[0]? = l[n + 0]? := List.getElem?_drop l n 0
    rw [h] at h0
    simpa using h0.symm
  · have ht : (l.drop n).tail = l.drop (n + 1) := List.tail_drop l n
    rw [h] at ht
    simpa using ht

theorem fwdGo_zero (rem : List Token) (pos : Nat) : fwdGo rem 0 pos = some pos := by
  cases rem <;> rfl

theorem fwd_level_int (lvl : Nat) (t : Token) (h : 0 < lvl) :
    (fwd_level lvl t : Int) = lvl + wt t := by
  cases t <;> simp [fwd_level, wt] <;> omega

theorem rev_level_int (lvl : Nat) (t : Token) (h : 0 < lvl) :
    (rev_level lvl t : Int) = lvl - wt t := by
  cases t <;> simp [rev_level, wt] <;> omega

theorem fwdGo_sound (l : List Token) (rem : List Token) :
    ∀ (lvl pos j : Nat), rem = l.drop (pos + 1) → 0 < lvl →
      fwdGo rem lvl pos = some j →
      pos < j ∧ j < l.length ∧ hgt l (j + 1) = hgt l (pos + 1) - lvl ∧
        (∀ k, pos < k → k < j → hgt l (pos + 1) - lvl < hgt l (k + 1)) ∧
        ∃ a, l[j]? = some (.Close a) := by
  induction rem with
  | nil =>
    intro lvl pos j hrem hlvl hrun
    rw [fwdGo, if_neg (by omega)] at hrun
    exact absurd hrun (by simp)
  | cons t rest ih =>
    intro lvl pos j hrem hlvl hrun
    obtain ⟨hget, hrest⟩ := drop_cons hrem.symm
    have hbound : pos + 1 < l.length := (List.getElem?_eq_some.mp hget).1
    have hstep : hgt l (pos + 1 + 1) = hgt l (pos + 1) + wt t := hgt_succ l (pos + 1) t hget
    rw [fwdGo, if_neg (by omega)] at hrun
    by_cases hl0 : fwd_level lvl t = 0
    · rw [hl0, fwdGo_zero] at hrun
      have hj : j = pos + 1 := by simpa using hrun.symm
      subst hj
      have hclose : (∃ a, t = .Close a) ∧ lvl = 1 := by
        cases t <;> simp [fwd_level] at hl0 <;> first
          | omega
          | exact ⟨⟨_, rfl⟩, by omega⟩
      obtain ⟨⟨a, rfl⟩, hlvl1⟩ := hclose
      refine ⟨by omega, hbound, ?_, by omega, ⟨a, hget⟩⟩
      rw [hstep, hlvl1]
      simp [wt]
      omega
    · have hpos' : 0 < fwd_level lvl t := Nat.pos_of_ne_zero hl0
      obtain ⟨h1, h2, h3, h4, h5⟩ := ih (fwd_level lvl t) (pos + 1) j hrest hpos' hrun
      have hcast : (fwd_level lvl t : Int) = lvl + wt t := fwd_level_int lvl t hlvl
      refine ⟨by omega, h2, ?_, ?_, h5⟩
      · rw [h3, hcast, hstep]
        ring
      · intro k hk1 hk2
        rcases Nat.lt_or_ge pos.succ k with hk | hk
        · have := h4 k hk hk2
          rw [hcast, hstep] at this
          linarith
        · have hkeq : k = pos + 1 := by omega
          subst hkeq
          rw [hstep]
          have : (0 : Int) < lvl + wt t := by rw [← hcast]; exact_mod_cast hpos'
          linarith

theorem fwdGo_complete (l : List Token) (rem : List Token) :
    ∀ (lvl pos j : Nat), rem = l.drop (pos + 1) → 0 < lvl →
      pos < j → j < l.length →
      hgt l (j + 1) = hgt l (pos + 1) - lvl →
      (∀ k, pos < k → k < j → hgt l (pos + 1) - lvl < hgt l (k + 1)) →
      fwdGo rem lvl pos = some j := by
  induction rem with
  | nil =>
    intro lvl pos j hrem hlvl hpj hjl _ _
    have : l.length ≤ pos + 1 := by
      have := List.drop_eq_nil_iff_le.mp hrem.symm
      exact this
    omega
  | cons t rest ih =>
    intro lvl pos j hrem hlvl hpj hjl heq hmin
    obtain ⟨hget, hrest⟩ := drop_cons hrem.symm
    have hstep : hgt l (pos + 1 + 1) = hgt l (pos + 1) + wt t := hgt_succ l (pos + 1) t hget
    rw [fwdGo, if_neg (by omega)]
    by_cases hj1 : j = pos + 1
    · subst hj1
      have hwt : wt t = -lvl := by
        rw [hstep] at heq
        linarith
      have hone : lvl = 1 ∧ ∃ a, t = .Close a := by
        rcases wt_mem_range t with h | h | h <;> rw [h] at hwt
        · refine ⟨by omega, ?_⟩
          cases t <;> simp [wt] at h
          exact ⟨_, rfl⟩
        · omega
        · omega
      obtain ⟨hlvl1, a, rfl⟩ := hone
      have : fwd_level lvl (Token.Close a) = 0 := by simp [fwd_level, hlvl1]
      rw [this, fwdGo_zero]
    · have hj2 : pos + 1 < j := by omega
      have hfl : (0 : Int) < lvl + wt t := by
        have := hmin (pos + 1) (by omega) hj2
        rw [hstep] at this
        linarith
      have hflnat : 0 < fwd_level lvl t := by
        have := fwd_level_int lvl t hlvl
        omega
      apply ih (fwd_level lvl t) (pos + 1) j hrest hflnat hj2 hjl
      · rw [heq, fwd_level_int lvl t hlvl, hstep]
        ring
      · intro k hk1 hk2
        have := hmin k (by omega) hk2
        rw [fwd_level_int lvl t hlvl, hstep]
        linarith

theorem revGo_zero (l : List Token) (pos : Nat) : revGo l 0 pos = some pos := by
  rw [revGo.eq_def]
  simp

theorem revGo_pos0 (l : List Token) (lvl : Nat) (h : lvl ≠ 0) : revGo l lvl 0 = none := by
  rw [revGo.eq_def]
  simp [h]

theorem revGo_succ_none (l : List Token) (lvl p : Nat) (h : lvl ≠ 0)
    (hget : l[p]? = none) : revGo l lvl (p + 1) = none := by
  rw [revGo.eq_def]
  simp [h, hget]

theorem revGo_succ_some (l : List Token) (lvl p : Nat) (t : Token) (h : lvl ≠ 0)
    (hget : l[p]? = some t) : revGo l lvl (p + 1) = revGo l (rev_level lvl t) p := by
  rw [revGo.eq_def]
  simp [h, hget]

theorem revGo_sound (l : List Token) (pos : Nat) :
    ∀ (lvl i : Nat), 0 < lvl → revGo l lvl pos = some i →
      i < pos ∧ hgt l i = hgt l pos - lvl ∧
        (∀ k, i < k → k < pos → hgt l pos - lvl < hgt l k) ∧
        ∃ a, l[i]? = some (.Open a) := by
  induction pos with
  | zero =>
    intro lvl i hlvl hrun
    rw [revGo_pos0 l lvl (by omega)] at hrun
    exact absurd hrun (by simp)
  | succ p ih =>
    intro lvl i hlvl hrun
    cases hget : l[p]? with
    | none =>
      rw [revGo_succ_none l lvl p (by omega) hget] at hrun
      exact absurd hrun (by simp)
    | some t =>
      rw [revGo_succ_some l lvl p t (by omega) hget] at hrun
      have hstep : hgt l (p + 1) = hgt l p + wt t := hgt_succ l p t hget
      by_cases hl0 : rev_level lvl t = 0
      · rw [hl0, revGo_zero] at hrun
        have hi : i = p := by simpa using hrun.symm
        subst hi
        have hopen : (∃ a, t = .Open a) ∧ lvl = 1 := by
          cases t <;> simp [rev_level] at hl0 <;> first
            | omega
            | exact ⟨⟨_, rfl⟩, by omega⟩
        obtain ⟨⟨a, rfl⟩, hlvl1⟩ := hopen
        refine ⟨by omega, ?_, by omega, ⟨a, hget⟩⟩
        rw [hstep, hlvl1]
        simp [wt]
      · have hpos' : 0 < rev_level lvl t := Nat.pos_of_ne_zero hl0
        obtain ⟨h1, h2, h3, h4⟩ := ih (rev_level lvl t) i hpos' hrun
        have hcast : (rev_level lvl t : Int) = lvl - wt t := rev_level_int lvl t hlvl
        refine ⟨by omega, ?_, ?_, h4⟩
        · rw [h2, hcast, hstep]
          ring
        · intro k hk1 hk2
          rcases Nat.lt_or_ge k p with hk | hk
          · have := h3 k hk1 hk
            rw [hcast] at this
            rw [hstep]
            linarith
          · have hkeq : k = p := by omega
            subst hkeq
            have : (0 : Int) < lvl - wt t := by rw [← hcast]; exact_mod_cast hpos'
            rw [hstep]
            linarith

theorem revGo_complete (l : List Token) (pos : Nat) :
    ∀ (lvl i : Nat), 0 < lvl → i < pos → pos ≤ l.length →
      hgt l i = hgt l pos - lvl →
      (∀ k, i < k → k < pos → hgt l pos - lvl < hgt l k) →
      revGo l lvl pos = some i := by
  induction pos with
  | zero =>
    intro lvl i _ hip _ _ _
    omega
  | succ p ih =>
    intro lvl i hlvl hip hlen heq hmin
    cases hget : l[p]? with
    | none =>
      have := List.getElem?_eq_none_iff.mp hget
      omega
    | some t =>
      rw [revGo_succ_some l lvl p t (by omega) hget]
      have hstep : hgt l (p + 1) = hgt l p + wt t := hgt_succ l p t hget
      by_cases hpi : p = i
      · subst hpi
        have hwt : wt t = lvl := by
          rw [hstep] at heq
          linarith
        have hone : lvl = 1 ∧ ∃ a, t = .Open a := by
          rcases wt_mem_range t with h | h | h <;> rw [h] at hwt
          · omega
          · omega
          · refine ⟨by omega, ?_⟩
            cases t <;> simp [wt] at h
            exact ⟨_, rfl⟩
        obtain ⟨hlvl1, a, rfl⟩ := hone
        have hrl : rev_level lvl (Token.Open a) = 0 := by simp [rev_level, hlvl1]
        rw [hrl, revGo_zero]
      · have hi2 : i < p := by omega
        have hwlt : (0 : Int) < lvl - wt t := by
          have := hmin p (by omega) (by omega)
          rw [hstep] at this
          linarith
        have hposn : 0 < rev_level lvl t := by
          have := rev_level_int lvl t hlvl
          omega
        apply ih (rev_level lvl t) i hposn hi2 (by omega)
        · rw [heq, rev_level_int lvl t hlvl, hstep]
          ring
        · intro k hk1 hk2
          have hmk := hmin k hk1 (by omega)
          rw [hstep] at hmk
          rw [rev_level_int lvl t hlvl]
          linarith

/-! Tag congruence: the bracket scans read only constructor discriminants,
so they are unchanged by payload rewrites. -/

theorem fwd_level_tag {t t' : Token} (h : tok_tag t = tok_tag t') (lvl : Nat) :
    fwd_level lvl t = fwd_level lvl t' := by
  cases t <;> cases t' <;> first
    | rfl
    | simp [tok_tag] at h

theorem rev_level_tag {t t' : Token} (h : tok_tag t = tok_tag t') (lvl : Nat) :
    rev_level lvl t = rev_level lvl t' := by
  cases t <;> cases t' <;> first
    | rfl
    | simp [tok_tag] at h

theorem wt_tag {t t' : Token} (h : tok_tag t = tok_tag t') : wt t = wt t' := by
  cases t <;> cases t' <;> first
    | rfl
    | simp [tok_tag] at h

theorem fwdGo_congr (rem rem' : List Token)
    (h : rem.map tok_tag = rem'.map tok_tag) :
    ∀ lvl pos, fwdGo rem lvl pos = fwdGo rem' lvl pos := by
  induction rem generalizing rem' with
  | nil =>
    cases rem' with
    | nil => intro lvl pos; rfl
    | cons t' rest' => simp at h
  | cons t rest ih =>
    cases rem' with
    | nil => simp at h
    | cons t' rest' =>
      simp only [List.map_cons, List.cons.injEq] at h
      intro lvl pos
      by_cases h0 : lvl = 0
      · subst h0
        rw [fwdGo_zero, fwdGo_zero]
      · rw [fwdGo, if_neg h0, fwdGo, if_neg h0, fwd_level_tag h.1]
        exact ih rest' h.2 _ _

theorem revGo_congr (l l' : List Token) (h : l.map tok_tag = l'.map tok_tag) :
    ∀ pos lvl, revGo l lvl pos = revGo l' lvl pos := by
  intro pos
  induction pos with
  | zero =>
    intro lvl
    by_cases h0 : lvl = 0
    · subst h0; rw [revGo_zero, revGo_zero]
    · rw [revGo_pos0 l lvl h0, revGo_pos0 l' lvl h0]
  | succ p ih =>
    intro lvl
    by_cases h0 : lvl = 0
    · subst h0; rw [revGo_zero, revGo_zero]
    · have hmap : (l[p]?).map tok_tag = (l'[p]?).map tok_tag := by
        rw [← List.getElem?_map, ← List.getElem?_map, h]
      cases hget : l[p]? with
      | none =>
        cases hget' : l'[p]? with
        | none => rw [revGo_succ_none l lvl p h0 hget, revGo_succ_none l' lvl p h0 hget']
        | some t' => rw [hget, hget'] at hmap; simp at hmap
      | some t =>
        cases hget' : l'[p]? with
        | none => rw [hget, hget'] at hmap; simp at hmap
        | some t' =>
          rw [hget, hget'] at hmap
          simp only [Option.map_some'] at hmap
          have htag : tok_tag t = tok_tag t' := by simpa using hmap
          rw [revGo_succ_some l lvl p t h0 hget, revGo_succ_some l' lvl p t' h0 hget',
            rev_level_tag htag]
          exact ih _

theorem forward_ofset_congr (l l' : List Token)
    (h : l.map tok_tag = l'.map tok_tag) (pos : Nat) :
    forward_ofset l pos = forward_ofset l' pos := by
  unfold forward_ofset
  apply fwdGo_congr
  rw [List.map_drop, List.map_drop, h]

theorem rev_ofset_congr (l l' : List Token)
    (h : l.map tok_tag = l'.map tok_tag) (pos : Nat) :
    rev_ofset l pos = rev_ofset l' pos := by
  unfold rev_ofset
  exact revGo_congr l l' h pos 1

theorem map_tag_set (l : List Token) (i : Nat) (t t' : Token)
    (hget : l[i]? = some t) (h : tok_tag t' = tok_tag t) :
    (l.set i t').map tok_tag = l.map tok_tag := by
  apply List.ext_getElem?
  intro n
  rw [List.getElem?_map, List.getElem?_map]
  by_cases hn : n = i
  · subst hn
    have hb : n < l.length := (List.getElem?_eq_some.mp hget).1
    rw [List.getElem?_set_eq_of_lt _ hb, hget]
    simp [h]
  · rw [List.getElem?_set_ne (by omega)]

/-! The jump-resolver loop: what it guarantees when it returns. -/

theorem ResolvedAt_congr (cur cur' r : List Token) (n : Nat)
    (hg : cur'[n]? = cur[n]?)
    (hf : forward_ofset cur' n = forward_ofset cur n)
    (hr : rev_ofset cur' n = rev_ofset cur n) :
    ResolvedAt cur' r n → ResolvedAt cur r n := by
  unfold ResolvedAt
  rw [hg, hf, hr]
  exact id

theorem resolveStep_other (cur : List Token) (i : Nat)
    (h : ∀ a, cur[i]? ≠ some (.Open a)) (h' : ∀ a, cur[i]? ≠ some (.Close a)) :
    resolveStep cur i = some cur := by
  cases hg : cur[i]? with
  | none => simp [resolveStep, hg]
  | some t =>
    cases t with
    | Open a => exact absurd hg (h a)
    | Close a => exact absurd hg (h' a)
    | Right a => simp [resolveStep, hg]
    | Left a => simp [resolveStep, hg]
    | Incriment a => simp [resolveStep, hg]
    | Decriment a => simp [resolveStep, hg]
    | Input => simp [resolveStep, hg]
    | Output => simp [resolveStep, hg]

theorem resolveGo_sound (k : Nat) :
    ∀ (cur : List Token) (i : Nat) (r : List Token),
      resolveGo cur i k = some r → i + k = cur.length →
      r.length = cur.length ∧ (∀ n, n < i → r[n]? = cur[n]?) ∧
        ∀ n, i ≤ n → ResolvedAt cur r n := by
  induction k with
  | zero =>
    intro cur i r hrun hlen
    have hr : r = cur := by simpa [resolveGo] using hrun.symm
    subst hr
    refine ⟨rfl, fun n _ => rfl, fun n hn => ?_⟩
    have hnone : r[n]? = none := List.getElem?_eq_none (by omega)
    refine ⟨fun a ha => ?_, fun a ha => ?_, fun _ _ => rfl⟩
    · rw [hnone] at ha; exact absurd ha (by simp)
    · rw [hnone] at ha; exact absurd ha (by simp)
  | succ k ih =>
    intro cur i r hrun hlen
    have hib : i < cur.length := by omega
    obtain ⟨t, hget⟩ : ∃ t, cur[i]? = some t := ⟨_, List.getElem?_eq_getElem hib⟩
    rw [resolveGo] at hrun
    cases t with
    | Open a =>
      cases hfwd : forward_ofset cur i with
      | none =>
        have hrs : resolveStep cur i = none := by simp [resolveStep, hget, hfwd]
        rw [hrs] at hrun
        exact absurd hrun (by simp)
      | some pos =>
        have hrs : resolveStep cur i = some (cur.set i (.Open pos)) := by
          simp [resolveStep, hget, hfwd]
        rw [hrs] at hrun
        have htag : (cur.set i (.Open pos)).map tok_tag = cur.map tok_tag :=
          map_tag_set cur i (.Open a) (.Open pos) hget rfl
        obtain ⟨hlr, hpre, hres⟩ := ih (cur.set i (.Open pos)) (i + 1) r hrun
          (by rw [List.length_set]; omega)
        have hsetlen : (cur.set i (.Open pos)).length = cur.length := List.length_set cur i _
        refine ⟨by rw [hlr, hsetlen], fun n hn => ?_, fun n hn => ?_⟩
        · rw [hpre n (by omega), List.getElem?_set_ne (by omega)]
        · rcases Nat.eq_or_lt_of_le hn with hni | hni
        
          · subst hni
            refine ⟨fun a' ha' => ⟨pos, hfwd, ?_⟩, fun a' ha' => ?_, fun hno _ => ?_⟩
            · rw [hpre i (by omega), List.getElem?_set_eq_of_lt _ hib]
            · rw [hget] at ha'; exact absurd ha' (by simp)
            · exact absurd hget (hno a)
          · apply ResolvedAt_congr cur (cur.set i (.Open pos)) r n
              (List.getElem?_set_ne (by omega))
              (forward_ofset_congr _ _ htag n) (rev_ofset_congr _ _ htag n)
            exact hres n (by omega)
    | Close a =>
      cases hrev : rev_ofset cur i with
      | none =>
        have hrs : resolveStep cur i = none := by simp [resolveStep, hget, hrev]
        rw [hrs] at hrun
        exact absurd hrun (by simp)
      | some pos =>
        have hrs : resolveStep cur i = some (cur.set i (.Close pos)) := by
          simp [resolveStep, hget, hrev]
        rw [hrs] at hrun
        have htag : (cur.set i (.Close pos)).map tok_tag = cur.map tok_tag :=
          map_tag_set cur i (.Close a) (.Close pos) hget rfl
        obtain ⟨hlr, hpre, hres⟩ := ih (cur.set i (.Close pos)) (i + 1) r hrun
          (by rw [List.length_set]; omega)
        have hsetlen : (cur.set i (.Close pos)).length = cur.length := List.length_set cur i _
        refine ⟨by rw [hlr, hsetlen], fun n hn => ?_, fun n hn => ?_⟩
        · rw [hpre n (by omega), List.getElem?_set_ne (by omega)]
        · rcases Nat.eq_or_lt_of_le hn with hni | hni
          · subst hni
            refine ⟨fun a' ha' => ?_, fun a' ha' => ⟨pos, hrev, ?_⟩, fun _ hno => ?_⟩
            · rw [hget] at ha'; exact absurd ha' (by simp)
            · rw [hpre i (by omega), List.getElem?_set_eq_of_lt _ hib]
            · exact absurd hget (hno a)
          · apply ResolvedAt_congr cur (cur.set i (.Close pos)) r n
              (List.getElem?_set_ne (by omega))
              (forward_ofset_congr _ _ htag n) (rev_ofset_congr _ _ htag n)
            exact hres n (by omega)
    | Right a =>
      rw [resolveStep_other cur i (by simp [hget]) (by simp [hget])] at hrun
      obtain ⟨hlr, hpre, hres⟩ := ih cur (i + 1) r hrun (by omega)
      refine ⟨hlr, fun n hn => hpre n (by omega), fun n hn => ?_⟩
      rcases Nat.eq_or_lt_of_le hn with hni | hni
      · subst hni
        exact ⟨fun a' ha' => by rw [hget] at ha'; exact absurd ha' (by simp),
          fun a' ha' => by rw [hget] at ha'; exact absurd ha' (by simp),
          fun _ _ => hpre i (by omega)⟩
      · exact hres n (by omega)
    | Left a =>
      rw [resolveStep_other cur i (by simp [hget]) (by simp [hget])] at hrun
      obtain ⟨hlr, hpre, hres⟩ := ih cur (i + 1) r hrun (by omega)
      refine ⟨hlr, fun n hn => hpre n (by omega), fun n hn => ?_⟩
      rcases Nat.eq_or_lt_of_le hn with hni | hni
      · subst hni
        exact ⟨fun a' ha' => by rw [hget] at ha'; exact absurd ha' (by simp),
          fun a' ha' => by rw [hget] at ha'; exact absurd ha' (by simp),
          fun _ _ => hpre i (by omega)⟩
      · exact hres n (by omega)
    | Incriment a =>
      rw [resolveStep_other cur i (by simp [hget]) (by simp [hget])] at hrun
      obtain ⟨hlr, hpre, hres⟩ := ih cur (i + 1) r hrun (by omega)
      refine ⟨hlr, fun n hn => hpre n (by omega), fun n hn => ?_⟩
      rcases Nat.eq_or_lt_of_le hn with hni | hni
      · subst hni
        exact ⟨fun a' ha' => by rw [hget] at ha'; exact absurd ha' (by simp),
          fun a' ha' => by rw [hget] at ha'; exact absurd ha' (by simp),
          fun _ _ => hpre i (by omega)⟩
      · exact hres n (by omega)
    | Decriment a =>
      rw [resolveStep_other cur i (by simp [hget]) (by simp [hget])] at hrun
      obtain ⟨hlr, hpre, hres⟩ := ih cur (i + 1) r hrun (by omega)
      refine ⟨hlr, fun n hn => hpre n (by omega), fun n hn => ?_⟩
      rcases Nat.eq_or_lt_of_le hn with hni | hni
      · subst hni
        exact ⟨fun a' ha' => by rw [hget] at ha'; exact absurd ha' (by simp),
          fun a' ha' => by rw [hget] at ha'; exact absurd ha' (by simp),
          fun _ _ => hpre i (by omega)⟩
      · exact hres n (by omega)
    | Input =>
      rw [resolveStep_other cur i (by simp [hget]) (by simp [hget])] at hrun
      obtain ⟨hlr, hpre, hres⟩ := ih cur (i + 1) r hrun (by omega)
      refine ⟨hlr, fun n hn => hpre n (by omega), fun n hn => ?_⟩
      rcases Nat.eq_or_lt_of_le hn with hni | hni
      · subst hni
        exact ⟨fun a' ha' => by rw [hget] at ha'; exact absurd ha' (by simp),
          fun a' ha' => by rw [hget] at ha'; exact absurd ha' (by simp),
          fun _ _ => hpre i (by omega)⟩
      · exact hres n (by omega)
    | Output =>
      rw [resolveStep_other cur i (by simp [hget]) (by simp [hget])] at hrun
      obtain ⟨hlr, hpre, hres⟩ := ih cur (i + 1) r hrun (by omega)
      refine ⟨hlr, fun n hn => hpre n (by omega), fun n hn => ?_⟩
      rcases Nat.eq_or_lt_of_le hn with hni | hni
      · subst hni
        exact ⟨fun a' ha' => by rw [hget] at ha'; exact absurd ha' (by simp),
          fun a' ha' => by rw [hget] at ha'; exact absurd ha' (by simp),
          fun _ _ => hpre i (by omega)⟩
      · exact hres n (by omega)

theorem resolveInst_sound (l r : List Token) (h : resolveInst l = some r) :
    r.length = l.length ∧ ∀ n, ResolvedAt l r n := by
  obtain ⟨h1, _, h3⟩ := resolveGo_sound l.length l 0 r h (by omega)
  exact ⟨h1, fun n => h3 n (by omega)⟩

/-! Mutual inversion of the two bracket scans. -/

theorem fwd_to_rev (l : List Token) (i j a : Nat)
    (hopen : l[i]? = some (.Open a)) (hfwd : forward_ofset l i = some j) :
    i < j ∧ (∃ c, l[j]? = some (.Close c)) ∧ rev_ofset l j = some i := by
  obtain ⟨hij, hjl, heq, hmin, c, hclose⟩ :=
    fwdGo_sound l (l.drop (i + 1)) 1 i j rfl (by omega) hfwd
  have hoi : hgt l (i + 1) = hgt l i + 1 := by
    rw [hgt_succ l i _ hopen]; simp [wt]
  have hcj : hgt l (j + 1) = hgt l j - 1 := by
    rw [hgt_succ l j _ hclose]; simp [wt]; omega
  have hj : hgt l j = hgt l i + 1 := by
    have : hgt l (j + 1) = hgt l (i + 1) - 1 := by simpa using heq
    omega
  refine ⟨hij, ⟨c, hclose⟩, ?_⟩
  apply revGo_complete l j 1 i (by omega) hij (by omega)
  · rw [hj]; simp
  · intro k hk1 hk2
    rw [hj]
    rcases Nat.eq_or_lt_of_le (Nat.succ_le_of_lt hk1) with hk | hk
    · rw [← hk, hoi]
      simp
    · have := hmin (k - 1) (by omega) (by omega)
      have hrw : k - 1 + 1 = k := by omega
      rw [hrw] at this
      rw [hoi] at this
      have : hgt l i < hgt l k := by omega
      simpa using this

theorem rev_to_fwd (l : List Token) (j i c : Nat)
    (hclose : l[j]? = some (.Close c)) (hrev : rev_ofset l j = some i) :
    i < j ∧ (∃ a, l[i]? = some (.Open a)) ∧ forward_ofset l i = some j := by
  obtain ⟨hij, heq, hmin, a, hopen⟩ := revGo_sound l j 1 i (by omega) hrev
  have hjl : j < l.length := (List.getElem?_eq_some.mp hclose).1
  have hoi : hgt l (i + 1) = hgt l i + 1 := by
    rw [hgt_succ l i _ hopen]; simp [wt]
  have hcj : hgt l (j + 1) = hgt l j - 1 := by
    rw [hgt_succ l j _ hclose]; simp [wt]; omega
  have hio : hgt l i = hgt l j - 1 := by simpa using heq
  refine ⟨hij, ⟨a, hopen⟩, ?_⟩
  apply fwdGo_complete l (l.drop (i + 1)) 1 i j rfl (by omega) hij hjl
  · omega
  · intro k hk1 hk2
    have hk3 : k + 1 ≤ j := by omega
    rcases Nat.eq_or_lt_of_le hk3 with hk | hk
    · rw [hk]
      omega
    · have := hmin (k + 1) (by omega) hk
      omega

/-- A resolved `Open` payload points strictly forward at the matching
`Close`, which is resolved back to the `Open`'s index. -/
theorem resolved_open_pair (l r : List Token) (i j : Nat)
    (hres : resolveInst l = some r) (hopen : r[i]? = some (.Open j)) :
    i < j ∧ (∃ c, l[j]? = some (.Close c)) ∧ r[j]? = some (.Close i) := by
  obtain ⟨hlen, hall⟩ := resolveInst_sound l r hres
  cases hget : l[i]? with
  | none =>
    have := (hall i).2.2 (by simp [hget]) (by simp [hget])
    rw [hopen, hget] at this
    exact absurd this (by simp)
  | some t =>
    cases t with
    | Open a =>
      obtain ⟨j', hfwd, hr⟩ := (hall i).1 a hget
      have hj : j' = j := by
        rw [hopen] at hr
        simpa using hr.symm
      subst hj
      obtain ⟨hij, ⟨c, hclose⟩, hrev⟩ := fwd_to_rev l i j' a hget hfwd
      obtain ⟨i', hrev', hr'⟩ := (hall j').2.1 c hclose
      rw [hrev] at hrev'
      have hi : i' = i := by simpa using hrev'.symm
      subst hi
      exact ⟨hij, ⟨c, hclose⟩, hr'⟩
    | Close a =>
      obtain ⟨j', _, hr⟩ := (hall i).2.1 a hget
      rw [hopen] at hr
      exact absurd hr (by simp)
    | Right a =>
      have := (hall i).2.2 (by simp [hget]) (by simp [hget])
      rw [hopen, hget] at this
      exact absurd this (by simp)
    | Left a =>
      have := (hall i).2.2 (by simp [hget]) (by simp [hget])
      rw [hopen, hget] at this
      exact absurd this (by simp)
    | Incriment a =>
      have := (hall i).2.2 (by simp [hget]) (by simp [hget])
      rw [hopen, hget] at this
      exact absurd this (by simp)
    | Decriment a =>
      have := (hall i).2.2 (by simp [hget]) (by simp [hget])
      rw [hopen, hget] at this
      exact absurd this (by simp)
    | Input =>
      have := (hall i).2.2 (by simp [hget]) (by simp [hget])
      rw [hopen, hget] at this
      exact absurd this (by simp)
    | Output =>
      have := (hall i).2.2 (by simp [hget]) (by simp [hget])
      rw [hopen, hget] at this
      exact absurd this (by simp)

/-- A resolved `Close` payload points strictly backward at the matching
`Open`, which is resolved forward to the `Close`'s index. -/
theorem resolved_close_pair (l r : List Token) (j t : Nat)
    (hres : resolveInst l = some r) (hclose : r[j]? = some (.Close t)) :
    t < j ∧ (∃ a, l[t]? = some (.Open a)) ∧ r[t]? = some (.Open j) := by
  obtain ⟨hlen, hall⟩ := resolveInst_sound l r hres
  cases hget : l[j]? with
  | none =>
    have := (hall j).2.2 (by simp [hget]) (by simp [hget])
    rw [hclose, hget] at this
    exact absurd this (by simp)
  | some u =>
    cases u with
    | Close a =>
      obtain ⟨t', hrev, hr⟩ := (hall j).2.1 a hget
      have ht : t' = t := by
        rw [hclose] at hr
        simpa using hr.symm
      subst ht
      obtain ⟨htj, ⟨b, hopen⟩, hfwd⟩ := rev_to_fwd l j t' a hget hrev
      obtain ⟨j', hfwd', hr'⟩ := (hall t').1 b hopen
      rw [hfwd] at hfwd'
      have hj : j' = j := by simpa using hfwd'.symm
      subst hj
      exact ⟨htj, ⟨b, hopen⟩, hr'⟩
    | Open a =>
      obtain ⟨j', _, hr⟩ := (hall j).1 a hget
      rw [hclose] at hr
      exact absurd hr (by simp)
    | Right a =>
      have := (hall j).2.2 (by simp [hget]) (by simp [hget])
      rw [hclose, hget] at this
      exact absurd this (by simp)
    | Left a =>
      have := (hall j).2.2 (by simp [hget]) (by simp [hget])
      rw [hclose, hget] at this
      exact absurd this (by simp)
    | Incriment a =>
      have := (hall j).2.2 (by simp [hget]) (by simp [hget])
      rw [hclose, hget] at this
      exact absurd this (by simp)
    | Decriment a =>
      have := (hall j).2.2 (by simp [hget]) (by simp [hget])
      rw [hclose, hget] at this
      exact absurd this (by simp)
    | Input =>
      have := (hall j).2.2 (by simp [hget]) (by simp [hget])
      rw [hclose, hget] at this
      exact absurd this (by simp)
    | Output =>
      have := (hall j).2.2 (by simp [hget]) (by simp [hget])
      rw [hclose, hget] at this
      exact absurd this (by simp)

/-- C6: for a program accepted by the jump resolver, resolved `Open` targets
point strictly forward at the structurally matching `Close`, and that
`Close` is resolved back to the `Open`'s own index. -/
theorem C6_resolver_targets_mutual_inverse (l r : List Token) (i j : Nat)
    (hres : resolveInst l = some r) (hopen : r[i]? = some (.Open j)) :
    i < j ∧ (∃ c, l[j]? = some (.Close c)) ∧ r[j]? = some (.Close i) :=
  resolved_open_pair l r i j hres hopen

/-- Witness for C6 on the program `[-]`. -/
theorem C6_resolver_targets_mutual_inverse_witness :
    (0 : Nat) < 2 ∧
      (∃ c, ([Token.Open 1, Token.Decriment 1, Token.Close 1] : List Token)[2]? =
        some (Token.Close c)) ∧
      ([Token.Open 2, Token.Decriment 1, Token.Close 0] : List Token)[2]? =
        some (Token.Close 0) :=
  C6_resolver_targets_mutual_inverse
    [Token.Open 1, Token.Decriment 1, Token.Close 1]
    [Token.Open 2, Token.Decriment 1, Token.Close 0] 0 2 (by decide) (by decide)

/-! Balanced programs resolve successfully. -/

theorem tag_open (t : Token) (h : tok_tag t = 4) : ∃ b, t = .Open b := by
  cases t <;> simp [tok_tag] at h ⊢

theorem tag_close (t : Token) (h : tok_tag t = 5) : ∃ b, t = .Close b := by
  cases t <;> simp [tok_tag] at h ⊢

theorem balanced_fwd (l : List Token) (hb : BalancedProg l) (n a : Nat)
    (hget : l[n]? = some (.Open a)) : (forward_ofset l n).isSome := by
  have hn : n < l.length := (List.getElem?_eq_some.mp hget).1
  have hstep : hgt l (n + 1) = hgt l n + 1 := by
    rw [hgt_succ l n _ hget]; simp [wt]
  have hpos : 1 ≤ hgt l (n + 1) := by
    have := hb.2 n (by omega)
    omega
  have htot : hgt l l.length = 0 := hb.1
  have hlen2 : n + 2 ≤ l.length := by
    rcases Nat.lt_or_ge (n + 1) l.length with h | h
    · omega
    · have hle : l.length = n + 1 := by omega
      rw [hle] at htot
      omega
  have hex : ∃ j, n < j ∧ j < l.length ∧ hgt l (j + 1) < hgt l (n + 1) := by
    refine ⟨l.length - 1, by omega, by omega, ?_⟩
    have hrw : l.length - 1 + 1 = l.length := by omega
    rw [hrw, htot]
    omega
  obtain ⟨hP1, hP2, hP3⟩ := Nat.find_spec hex
  have hminfact : ∀ k, n < k → k < Nat.find hex → hgt l (n + 1) ≤ hgt l (k + 1) := by
    intro k hk1 hk2
    have hnot := Nat.find_min hex hk2
    push_neg at hnot
    exact hnot hk1 (by omega)
  have hj0ge : hgt l (n + 1) ≤ hgt l (Nat.find hex) := by
    rcases Nat.eq_or_lt_of_le (Nat.succ_le_of_lt hP1) with h | h
    · rw [← h]
    · have hmf := hminfact (Nat.find hex - 1) (by omega) (by omega)
      have hrw : Nat.find hex - 1 + 1 = Nat.find hex := by omega
      rw [hrw] at hmf
      exact hmf
  obtain ⟨t, htj⟩ : ∃ t, l[Nat.find hex]? = some t := ⟨_, List.getElem?_eq_getElem hP2⟩
  have hstepj : hgt l (Nat.find hex + 1) = hgt l (Nat.find hex) + wt t :=
    hgt_succ l (Nat.find hex) t htj
  have heqj : hgt l (Nat.find hex + 1) = hgt l (n + 1) - 1 := by
    rcases wt_mem_range t with h | h | h <;> rw [h] at hstepj <;> omega
  have hcomp := fwdGo_complete l (l.drop (n + 1)) 1 n (Nat.find hex) rfl (by omega) hP1 hP2
    (by rw [heqj]; simp)
    (by
      intro k hk1 hk2
      have := hminfact k hk1 hk2
      simp only [Nat.cast_one]
      omega)
  simp only [forward_ofset, hcomp, Option.isSome_some]

theorem balanced_rev (l : List Token) (hb : BalancedProg l) (n c : Nat)
    (hget : l[n]? = some (.Close c)) : (rev_ofset l n).isSome := by
  have hn : n < l.length := (List.getElem?_eq_some.mp hget).1
  have hstep : hgt l (n + 1) = hgt l n - 1 := by
    rw [hgt_succ l n _ hget]; simp [wt]; omega
  have hpos : 1 ≤ hgt l n := by
    have := hb.2 (n + 1) (by omega)
    omega
  have hzero : hgt l 0 = 0 := hgt_zero l
  have hn0 : 0 < n := by
    rcases Nat.eq_zero_or_pos n with h | h
    · rw [h, hzero] at hpos; omega
    · exact h
  have hwit : hgt l 0 < hgt l n := by omega
  set P : Nat → Prop := fun k => hgt l k < hgt l n with hP
  have hPdec : DecidablePred P := by
    intro k
    unfold_let P
    infer_instance
  have hspec : P (Nat.findGreatest P (n - 1)) :=
    Nat.findGreatest_spec (P := P) (by omega) hwit
  have hle : Nat.findGreatest P (n - 1) ≤ n - 1 := Nat.findGreatest_le (n - 1)
  have hgreat : ∀ k, Nat.findGreatest P (n - 1) < k → k < n → hgt l n ≤ hgt l k := by
    intro k hk1 hk2
    have := Nat.findGreatest_is_greatest (P := P) hk1 (by omega)
    unfold_let P at this
    omega
  set i0 := Nat.findGreatest P (n - 1) with hi0
  have hi0lt : hgt l i0 < hgt l n := hspec
  have hi0n : i0 < n := by omega
  have hup : hgt l n ≤ hgt l (i0 + 1) := by
    rcases Nat.eq_or_lt_of_le (Nat.succ_le_of_lt hi0n) with h | h
    · rw [show i0 + 1 = n from h]
    · exact hgreat (i0 + 1) (by omega) h
  obtain ⟨t, hti⟩ : ∃ t, l[i0]? = some t := ⟨_, List.getElem?_eq_getElem (by omega)⟩
  have hstepi : hgt l (i0 + 1) = hgt l i0 + wt t := hgt_succ l i0 t hti
  have heqi : hgt l i0 = hgt l n - 1 := by
    rcases wt_mem_range t with h | h | h <;> rw [h] at hstepi <;> omega
  have hcomp := revGo_complete l n 1 i0 (by omega) hi0n (by omega)
    (by rw [heqi]; simp)
    (by
      intro k hk1 hk2
      have := hgreat k hk1 hk2
      simp only [Nat.cast_one]
      omega)
  simp only [rev_ofset, hcomp, Option.isSome_some]

theorem ScansOK_congr (cur cur' : List Token)
    (htag : cur'.map tok_tag = cur.map tok_tag) (h : ScansOK cur) : ScansOK cur' := by
  intro n
  have hmap : (cur'[n]?).map tok_tag = (cur[n]?).map tok_tag := by
    rw [← List.getElem?_map, ← List.getElem?_map, htag]
  constructor
  · intro a hga
    rw [hga] at hmap
    cases hcg : cur[n]? with
    | none => rw [hcg] at hmap; simp at hmap
    | some t =>
      rw [hcg] at hmap
      simp only [Option.map_some'] at hmap
      have ht : tok_tag t = 4 := by simpa [tok_tag] using hmap.symm
      obtain ⟨b, rfl⟩ := tag_open t ht
      rw [forward_ofset_congr cur' cur htag n]
      exact (h n).1 b hcg
  · intro a hga
    rw [hga] at hmap
    cases hcg : cur[n]? with
    | none => rw [hcg] at hmap; simp at hmap
    | some t =>
      rw [hcg] at hmap
      simp only [Option.map_some'] at hmap
      have ht : tok_tag t = 5 := by simpa [tok_tag] using hmap.symm
      obtain ⟨b, rfl⟩ := tag_close t ht
      rw [rev_ofset_congr cur' cur htag n]
      exact (h n).2 b hcg

theorem resolveGo_ok (k : Nat) :
    ∀ (cur : List Token) (i : Nat), i + k = cur.length → ScansOK cur →
      ∃ r, resolveGo cur i k = some r := by
  induction k with
  | zero =>
    intro cur i _ _
    exact ⟨cur, rfl⟩
  | succ k ih =>
    intro cur i hlen hok
    have hib : i < cur.length := by omega
    obtain ⟨t, hget⟩ : ∃ t, cur[i]? = some t := ⟨_, List.getElem?_eq_getElem hib⟩
    rw [resolveGo]
    cases t with
    | Open a =>
      obtain ⟨pos, hfwd⟩ := Option.isSome_iff_exists.mp ((hok i).1 a hget)
      have hrs : resolveStep cur i = some (cur.set i (.Open pos)) := by
        simp [resolveStep, hget, hfwd]
      rw [hrs]
      exact ih (cur.set i (.Open pos)) (i + 1) (by rw [List.length_set]; omega)
        (ScansOK_congr cur (cur.set i (.Open pos))
          (map_tag_set cur i (.Open a) (.Open pos) hget rfl) hok)
    | Close a =>
      obtain ⟨pos, hrev⟩ := Option.isSome_iff_exists.mp ((hok i).2 a hget)
      have hrs : resolveStep cur i = some (cur.set i (.Close pos)) := by
        simp [resolveStep, hget, hrev]
      rw [hrs]
      exact ih (cur.set i (.Close pos)) (i + 1) (by rw [List.length_set]; omega)
        (ScansOK_congr cur (cur.set i (.Close pos))
          (map_tag_set cur i (.Close a) (.Close pos) hget rfl) hok)
    | Right a =>
      rw [resolveStep_other cur i (by simp [hget]) (by simp [hget])]
      exact ih cur (i + 1) (by omega) hok
    | Left a =>
      rw [resolveStep_other cur i (by simp [hget]) (by simp [hget])]
      exact ih cur (i + 1) (by omega) hok
    | Incriment a =>
      rw [resolveStep_other cur i (by simp [hget]) (by simp [hget])]
      exact ih cur (i + 1) (by omega) hok
    | Decriment a =>
      rw [resolveStep_other cur i (by simp [hget]) (by simp [hget])]
      exact ih cur (i + 1) (by omega) hok
    | Input =>
      rw [resolveStep_other cur i (by simp [hget]) (by simp [hget])]
      exact ih cur (i + 1) (by omega) hok
    | Output =>
      rw [resolveStep_other cur i (by simp [hget]) (by simp [hget])]
      exact ih cur (i + 1) (by omega) hok

theorem balanced_resolves (l : List Token) (hb : BalancedProg l) :
    ∃ r, resolveInst l = some r := by
  apply resolveGo_ok l.length l 0 (by omega)
  intro n
  exact ⟨fun a h => balanced_fwd l hb n a h, fun c h => balanced_rev l hb n c h⟩

/-- C3: on `MoveLeft` underflow (program `<`, data pointer 0) the code does a
bare checked `usize` subtraction: the run aborts with an arithmetic panic
(modelled `none`/`panicked`) instead of reporting a `PointerUnderflow`
error. -/
theorem C3_pointer_underflow_panics :
    dec_data (⟨0, 0, [0], [Token.Left 1], 1⟩ : State) 1 = none ∧
      loadProgram [60] = some (⟨0, 0, [0], [Token.Left 1], 1⟩ : State) ∧
      run 1 (initConfig (⟨0, 0, [0], [Token.Left 1], 1⟩ : State) []) = RunRes.panicked := by
  refine ⟨by decide, by decide, by decide⟩

/-- C4: the unbalanced program `[` makes `forward_ofset` run off the end of
the instruction list — an out-of-bounds indexing panic during the resolver
pass, which in `main` precedes the execution loop — rather than a reported
`MalformedProgram` error; every balanced program resolves successfully. -/
theorem C4_unbalanced_rejected_at_resolution :
    resolveInst (lex [91]) = none ∧ loadProgram [91] = none ∧
      ∀ l, BalancedProg l → ∃ r, resolveInst l = some r := by
  exact ⟨by decide, by decide, fun l hb => balanced_resolves l hb⟩

/-- Witness for C4 on the balanced program `[]`. -/
theorem C4_unbalanced_rejected_at_resolution_witness :
    resolveInst (lex [91]) = none ∧ loadProgram [91] = none ∧
      BalancedProg [Token.Open 1, Token.Close 1] ∧
      ∃ r, resolveInst [Token.Open 1, Token.Close 1] = some r := by
  obtain ⟨h1, h2, h3⟩ := C4_unbalanced_rejected_at_resolution
  exact ⟨h1, h2, by decide, h3 [Token.Open 1, Token.Close 1] (by decide)⟩

/-! Folding shortens or preserves length; `last` stays the unfolded length. -/

theorem foldStep_length (acc : List Token) (t : Token) :
    (foldStep acc t).length ≤ acc.length + 1 := by
  cases t with
  | Right a =>
    cases hl : acc.getLast? with
    | none => simp [foldStep, hl]
    | some u => cases u <;> simp [foldStep, hl]
  | Left a =>
    cases hl : acc.getLast? with
    | none => simp [foldStep, hl]
    | some u => cases u <;> simp [foldStep, hl]
  | Incriment a =>
    cases hl : acc.getLast? with
    | none => simp [foldStep, hl]
    | some u => cases u <;> simp [foldStep, hl]
  | Decriment a =>
    cases hl : acc.getLast? with
    | none => simp [foldStep, hl]
    | some u => cases u <;> simp [foldStep, hl]
  | Open a => simp [foldStep]
  | Close a => simp [foldStep]
  | Input => simp [foldStep]
  | Output => simp [foldStep]

theorem foldl_foldStep_length (l : List Token) :
    ∀ acc, (List.foldl foldStep acc l).length ≤ acc.length + l.length := by
  induction l with
  | nil => intro acc; simp
  | cons t rest ih =>
    intro acc
    calc (List.foldl foldStep (foldStep acc t) rest).length
        ≤ (foldStep acc t).length + rest.length := ih (foldStep acc t)
      _ ≤ acc.length + 1 + rest.length := by
          have := foldStep_length acc t
          omega
      _ = acc.length + (t :: rest).length := by simp; omega

theorem foldInst_length (l : List Token) : (foldInst l).length ≤ l.length := by
  have := foldl_foldStep_length l []
  simpa [foldInst] using this

/-- C2 counterexample: for the source `++`, after folding and resolution the
`State` has `last = 2` (the unfolded token count) but an instruction list of
length 1. -/
theorem C2_last_neq_length_cex :
    loadProgram [43, 43] = some (⟨0, 0, [0], [Token.Incriment 2], 2⟩ : State) ∧
      (⟨0, 0, [0], [Token.Incriment 2], 2⟩ : State).last = 2 ∧
      (⟨0, 0, [0], [Token.Incriment 2], 2⟩ : State).inst.length = 1 ∧ (2 : Nat) ≠ 1 := by
  decide

/-- C2 amended: after the folder and resolver, `last` equals the length of
the unfolded lexer output; the final instruction sequence is at most that
long (equal only when folding merges nothing). -/
theorem C2_last_eq_unfolded_length (src : List Nat) (s : State)
    (h : loadProgram src = some s) :
    s.last = (lex src).length ∧ s.inst.length ≤ s.last := by
  simp only [loadProgram, afterLex] at h
  cases hres : resolveInst (foldInst (lex src)) with
  | none => rw [hres] at h; exact absurd h (by simp)
  | some r =>
    rw [hres] at h
    simp only [Option.map_some', Option.some.injEq] at h
    obtain ⟨hlen, _⟩ := resolveInst_sound _ r hres
    subst h
    refine ⟨rfl, ?_⟩
    simpa [hlen] using foldInst_length (lex src)

/-- Witness for C2's amended claim on the source `++`. -/
theorem C2_last_eq_unfolded_length_witness :
    loadProgram [43, 43] = some (⟨0, 0, [0], [Token.Incriment 2], 2⟩ : State) ∧
      (⟨0, 0, [0], [Token.Incriment 2], 2⟩ : State).last = (lex [43, 43]).length ∧
      (⟨0, 0, [0], [Token.Incriment 2], 2⟩ : State).inst.length ≤
        (⟨0, 0, [0], [Token.Incriment 2], 2⟩ : State).last := by
  refine ⟨by decide, ?_⟩
  have := C2_last_eq_unfolded_length [43, 43]
    (⟨0, 0, [0], [Token.Incriment 2], 2⟩ : State) (by decide)
  exact ⟨this.1, this.2⟩

/-- C7: when `MoveRight(a)` lands at or past the end of the tape, the tape is
extended to length exactly `memptr + a + 1` by appending zero cells, and
every existing cell keeps its value. -/
theorem C7_tape_growth (s : State) (a : Nat)
    (h : s.memory.length ≤ s.memptr + a) :
    (inc_data s a).memptr = s.memptr + a ∧
      (inc_data s a).memory =
        s.memory ++ List.replicate (s.memptr + a + 1 - s.memory.length) 0 ∧
      (inc_data s a).memory.length = s.memptr + a + 1 ∧
      ∀ k, k < s.memory.length → (inc_data s a).memory[k]? = s.memory[k]? := by
  have hcond : s.memptr + a ≥ s.memory.length := h
  have hmem : (inc_data s a).memory =
      s.memory ++ List.replicate (s.memptr + a + 1 - s.memory.length) 0 := by
    have harith : s.memptr + a - s.memory.length + 1 =
        s.memptr + a + 1 - s.memory.length := by omega
    unfold inc_data
    rw [if_pos hcond]
    simp only [pushZeros_eq]
    rw [harith]
  have hptr : (inc_data s a).memptr = s.memptr + a := by
    unfold inc_data
    rw [if_pos hcond]
  refine ⟨hptr, hmem, ?_, ?_⟩
  · rw [hmem, List.length_append, List.length_replicate]
    omega
  · intro k hk
    rw [hmem]
    exact List.getElem?_append_left hk

/-- Witness for C7: `MoveRight(2)` from a one-cell tape. -/
theorem C7_tape_growth_witness :
    (inc_data (⟨0, 0, [0], [], 0⟩ : State) 2).memptr = 2 ∧
      (inc_data (⟨0, 0, [0], [], 0⟩ : State) 2).memory = [0, 0, 0] := by
  have h := C7_tape_growth (⟨0, 0, [0], [], 0⟩ : State) 2 (by decide)
  refine ⟨h.1, ?_⟩
  rw [h.2.1]
  decide

/-- C9 counterexample: the program `-.` leaves 255 in the cell and `Output`
then writes the two UTF-8 bytes 195, 191 to stdout — not the single raw
byte 255. -/
theorem C9_output_single_raw_byte_cex :
    loadProgram [45, 46] =
      some (⟨0, 0, [0], [Token.Decriment 1, Token.Output], 2⟩ : State) ∧
      steps 2 (initConfig (⟨0, 0, [0], [Token.Decriment 1, Token.Output], 2⟩ : State) []) =
        some (⟨⟨0, 2, [255], [Token.Decriment 1, Token.Output], 2⟩, [], [195, 191]⟩ : Config) ∧
      ([195, 191] : List Nat) ≠ [255] := by
  decide

/-- C9 amended: `Output` performs exactly one character write of the cell
value `v`: for `v < 128` that is the single raw byte `v`, for `128 ≤ v ≤
255` it is the two-byte UTF-8 encoding of code point `v`. -/
theorem C9_output_utf8 (c : Config) (v : Nat)
    (h : c.st.memory[c.st.memptr]? = some v) (hv : v < 256) :
    ∃ c', outbyte c = some c' ∧ c'.st = c.st ∧ c'.inp = c.inp ∧
      c'.out = c.out ++ utf8Enc v ∧
      (v < 128 → utf8Enc v = [v]) ∧
      (128 ≤ v → utf8Enc v = [192 + v / 64, 128 + v % 64] ∧ (utf8Enc v).length = 2) := by
  refine ⟨{ c with out := c.out ++ utf8Enc v }, ?_, rfl, rfl, rfl, ?_, ?_⟩
  · simp [outbyte, h]
  · intro h128
    simp [utf8Enc, h128]
  · intro h128
    unfold utf8Enc
    rw [if_neg (by omega)]
    exact ⟨rfl, rfl⟩

/-- Witness for C9's amended claim at cell value 255. -/
theorem C9_output_utf8_witness :
    ∃ c', outbyte (⟨⟨0, 0, [255], [], 0⟩, [], []⟩ : Config) = some c' ∧
      c'.st = (⟨0, 0, [255], [], 0⟩ : State) ∧ c'.inp = ([] : List (Option Nat)) ∧
      c'.out = [] ++ utf8Enc 255 ∧
      (255 < 128 → utf8Enc 255 = [255]) ∧
      (128 ≤ 255 → utf8Enc 255 = [192 + 255 / 64, 128 + 255 % 64] ∧
        (utf8Enc 255).length = 2) :=
  C9_output_utf8 (⟨⟨0, 0, [255], [], 0⟩, [], []⟩ : Config) 255 (by decide) (by decide)

/-- C10: `Input` consumes at most one pending read; end-of-stream and failed
reads store 0, a successful read stores its byte; the data pointer, the
other cells and the output are unchanged. -/
theorem C10_input_semantics (c : Config) (w : Nat)
    (h : c.st.memory[c.st.memptr]? = some w) :
    ∃ c', inbyte c = some c' ∧ c'.inp = c.inp.tail ∧ c'.out = c.out ∧
      c'.st.memptr = c.st.memptr ∧ c'.st.instptr = c.st.instptr ∧
      c'.st.inst = c.st.inst ∧
      (c.inp.head? = none → c'.st.memory[c.st.memptr]? = some 0) ∧
      (c.inp.head? = some none → c'.st.memory[c.st.memptr]? = some 0) ∧
      (∀ b, c.inp.head? = some (some b) → c'.st.memory[c.st.memptr]? = some b) ∧
      (∀ k, k ≠ c.st.memptr → c'.st.memory[k]? = c.st.memory[k]?) := by
  have hb : c.st.memptr < c.st.memory.length := (List.getElem?_eq_some.mp h).1
  refine ⟨{ c with
      st := { c.st with memory := c.st.memory.set c.st.memptr (inVal c.inp.head?) },
      inp := c.inp.tail }, ?_, rfl, rfl, rfl, rfl, rfl, ?_, ?_, ?_, ?_⟩
  · simp [inbyte, h]
  · intro hh
    simp [hh, inVal, List.getElem?_set_eq_of_lt _ hb]
  · intro hh
    simp [hh, inVal, List.getElem?_set_eq_of_lt _ hb]
  · intro b hh
    simp [hh, inVal, List.getElem?_set_eq_of_lt _ hb]
  · intro k hk
    simp [List.getElem?_set_ne (Ne.symm hk)]

/-- Witness for C10 with one successful pending read. -/
theorem C10_input_semantics_witness :
    ∃ c', inbyte (⟨⟨0, 0, [7], [], 0⟩, [some 65], []⟩ : Config) = some c' ∧
      c'.inp = ([some 65] : List (Option Nat)).tail ∧ c'.out = [] ∧
      c'.st.memptr = 0 ∧ c'.st.instptr = 0 ∧ c'.st.inst = ([] : List Token) ∧
      (([some 65] : List (Option Nat)).head? = none → c'.st.memory[0]? = some 0) ∧
      (([some 65] : List (Option Nat)).head? = some none → c'.st.memory[0]? = some 0) ∧
      (∀ b, ([some 65] : List (Option Nat)).head? = some (some b) →
        c'.st.memory[0]? = some b) ∧
      (∀ k, k ≠ 0 → c'.st.memory[k]? = ([7] : List Nat)[k]?) :=
  C10_input_semantics (⟨⟨0, 0, [7], [], 0⟩, [some 65], []⟩ : Config) 7 (by decide)

/-! Step computation lemmas: one per dispatch arm of the execution loop. -/

theorem step_right (c : Config) (a : Nat)
    (hget : c.st.inst[c.st.instptr]? = some (.Right a)) :
    step c = some { c with st := advance (inc_data c.st a) } := by
  simp [step, hget]

theorem step_left (c : Config) (a : Nat)
    (hget : c.st.inst[c.st.instptr]? = some (.Left a)) :
    step c = (dec_data c.st a).map (fun s => { c with st := advance s }) := by
  simp [step, hget]

theorem step_incb (c : Config) (a : Nat)
    (hget : c.st.inst[c.st.instptr]? = some (.Incriment a)) :
    step c = (incbyte c.st a).map (fun s => { c with st := advance s }) := by
  simp [step, hget]

theorem step_decb (c : Config) (a : Nat)
    (hget : c.st.inst[c.st.instptr]? = some (.Decriment a)) :
    step c = (decbyte c.st a).map (fun s => { c with st := advance s }) := by
  simp [step, hget]

theorem step_outb (c : Config)
    (hget : c.st.inst[c.st.instptr]? = some .Output) :
    step c = (outbyte c).map (fun c2 => { c2 with st := advance c2.st }) := by
  simp [step, hget]

theorem step_inb (c : Config)
    (hget : c.st.inst[c.st.instptr]? = some .Input) :
    step c = (inbyte c).map (fun c2 => { c2 with st := advance c2.st }) := by
  simp [step, hget]

theorem step_open_zero (c : Config) (a : Nat)
    (hget : c.st.inst[c.st.instptr]? = some (.Open a))
    (hcell : c.st.memory[c.st.memptr]? = some 0) :
    step c = some { c with st := advance (jump_forward c.st a) } := by
  simp [step, hget, hcell]

theorem step_open_nz (c : Config) (a v : Nat)
    (hget : c.st.inst[c.st.instptr]? = some (.Open a))
    (hcell : c.st.memory[c.st.memptr]? = some v) (hv : v ≠ 0) :
    step c = some { c with st := advance c.st } := by
  simp [step, hget, hcell, hv]

theorem step_open_oob (c : Config) (a : Nat)
    (hget : c.st.inst[c.st.instptr]? = some (.Open a))
    (hcell : c.st.memory[c.st.memptr]? = none) :
    step c = none := by
  simp [step, hget, hcell]

theorem step_close_zero (c : Config) (a : Nat)
    (hget : c.st.inst[c.st.instptr]? = some (.Close a))
    (hcell : c.st.memory[c.st.memptr]? = some 0) :
    step c = some { c with st := advance c.st } := by
  simp [step, hget, hcell]

theorem step_close_nz (c : Config) (a v : Nat)
    (hget : c.st.inst[c.st.instptr]? = some (.Close a))
    (hcell : c.st.memory[c.st.memptr]? = some v) (hv : v ≠ 0) :
    step c = some { c with st := jump_rev c.st a } := by
  simp [step, hget, hcell, hv]

theorem step_close_oob (c : Config) (a : Nat)
    (hget : c.st.inst[c.st.instptr]? = some (.Close a))
    (hcell : c.st.memory[c.st.memptr]? = none) :
    step c = none := by
  simp [step, hget, hcell]

theorem dec_data_some (s : State) (a : Nat) (h : a ≤ s.memptr) :
    dec_data s a = some { s with memptr := s.memptr - a } := by
  simp [dec_data, h]

theorem dec_data_none (s : State) (a : Nat) (h : s.memptr < a) :
    dec_data s a = none := by
  simp [dec_data]
  omega

theorem incbyte_some (s : State) (a v : Nat) (h : s.memory[s.memptr]? = some v) :
    incbyte s a = some { s with memory := s.memory.set s.memptr (wadd8 v a) } := by
  simp [incbyte, h]

theorem incbyte_none (s : State) (a : Nat) (h : s.memory[s.memptr]? = none) :
    incbyte s a = none := by
  simp [incbyte, h]

theorem decbyte_some (s : State) (a v : Nat) (h : s.memory[s.memptr]? = some v) :
    decbyte s a = some { s with memory := s.memory.set s.memptr (wsub8 v a) } := by
  simp [decbyte, h]

theorem decbyte_none (s : State) (a : Nat) (h : s.memory[s.memptr]? = none) :
    decbyte s a = none := by
  simp [decbyte, h]

theorem outbyte_some (c : Config) (v : Nat) (h : c.st.memory[c.st.memptr]? = some v) :
    outbyte c = some { c with out := c.out ++ utf8Enc v } := by
  simp [outbyte, h]

theorem outbyte_none (c : Config) (h : c.st.memory[c.st.memptr]? = none) :
    outbyte c = none := by
  simp [outbyte, h]

theorem inbyte_some (c : Config) (v : Nat) (h : c.st.memory[c.st.memptr]? = some v) :
    inbyte c = some { c with
      st := { c.st with memory := c.st.memory.set c.st.memptr (inVal c.inp.head?) },
      inp := c.inp.tail } := by
  simp [inbyte, h]

theorem inbyte_none (c : Config) (h : c.st.memory[c.st.memptr]? = none) :
    inbyte c = none := by
  simp [inbyte, h]

theorem inc_data_inv (s : State) (a : Nat) :
    (inc_data s a).memptr < (inc_data s a).memory.length := by
  simp only [inc_data]
  split
  · rename_i hge
    simp only [pushZeros_eq, List.length_append, List.length_replicate]
    omega
  · rename_i hlt
    simp only
    omega

theorem step_inv (c c' : Config) (hstep : step c = some c')
    (hinv : c.st.memptr < c.st.memory.length) :
    c'.st.memptr < c'.st.memory.length := by
  cases hget : c.st.inst[c.st.instptr]? with
  | none => simp [step, hget] at hstep
  | some t =>
    cases t with
    | Right a =>
      rw [step_right c a hget] at hstep
      simp only [Option.some.injEq] at hstep
      subst hstep
      simpa [advance] using inc_data_inv c.st a
    | Left a =>
      rw [step_left c a hget] at hstep
      cases hd : dec_data c.st a with
      | none => rw [hd] at hstep; simp at hstep
      | some s' =>
        rw [hd] at hstep
        simp only [Option.map_some', Option.some.injEq] at hstep
        subst hstep
        unfold dec_data at hd
        split at hd
        · simp only [Option.some.injEq] at hd
          subst hd
          simp [advance]
          omega
        · simp at hd
    | Incriment a =>
      rw [step_incb c a hget] at hstep
      cases hd : incbyte c.st a with
      | none => rw [hd] at hstep; simp at hstep
      | some s' =>
        rw [hd] at hstep
        simp only [Option.map_some', Option.some.injEq] at hstep
        subst hstep
        cases hv : c.st.memory[c.st.memptr]? with
        | none => rw [incbyte_none c.st a hv] at hd; simp at hd
        | some v =>
          rw [incbyte_some c.st a v hv] at hd
          simp only [Option.some.injEq] at hd
          subst hd
          simp [advance, List.length_set]
          omega
    | Decriment a =>
      rw [step_decb c a hget] at hstep
      cases hd : decbyte c.st a with
      | none => rw [hd] at hstep; simp at hstep
      | some s' =>
        rw [hd] at hstep
        simp only [Option.map_some', Option.some.injEq] at hstep
        subst hstep
        cases hv : c.st.memory[c.st.memptr]? with
        | none => rw [decbyte_none c.st a hv] at hd; simp at hd
        | some v =>
          rw [decbyte_some c.st a v hv] at hd
          simp only [Option.some.injEq] at hd
          subst hd
          simp [advance, List.length_set]
          omega
    | Output =>
      rw [step_outb c hget] at hstep
      cases hd : outbyte c with
      | none => rw [hd] at hstep; simp at hstep
      | some c2 =>
        rw [hd] at hstep
        simp only [Option.map_some', Option.some.injEq] at hstep
        subst hstep
        cases hv : c.st.memory[c.st.memptr]? with
        | none => rw [outbyte_none c hv] at hd; simp at hd
        | some v =>
          rw [outbyte_some c v hv] at hd
          simp only [Option.some.injEq] at hd
          subst hd
          simpa [advance] using hinv
    | Input =>
      rw [step_inb c hget] at hstep
      cases hd : inbyte c with
      | none => rw [hd] at hstep; simp at hstep
      | some c2 =>
        rw [hd] at hstep
        simp only [Option.map_some', Option.some.injEq] at hstep
        subst hstep
        cases hv : c.st.memory[c.st.memptr]? with
        | none => rw [inbyte_none c hv] at hd; simp at hd
        | some v =>
          rw [inbyte_some c v hv] at hd
          simp only [Option.some.injEq] at hd
          subst hd
          simp [advance, List.length_set]
          omega
    | Open a =>
      cases hv : c.st.memory[c.st.memptr]? with
      | none => rw [step_open_oob c a hget hv] at hstep; simp at hstep
      | some v =>
        by_cases hz : v = 0
        · subst hz
          rw [step_open_zero c a hget hv] at hstep
          simp only [Option.some.injEq] at hstep
          subst hstep
          simpa [advance, jump_forward] using hinv
        · rw [step_open_nz c a v hget hv hz] at hstep
          simp only [Option.some.injEq] at hstep
          subst hstep
          simpa [advance] using hinv
    | Close a =>
      cases hv : c.st.memory[c.st.memptr]? with
      | none => rw [step_close_oob c a hget hv] at hstep; simp at hstep
      | some v =>
        by_cases hz : v = 0
        · subst hz
          rw [step_close_zero c a hget hv] at hstep
          simp only [Option.some.injEq] at hstep
          subst hstep
          simpa [advance] using hinv
        · rw [step_close_nz c a v hget hv hz] at hstep
          simp only [Option.some.injEq] at hstep
          subst hstep
          simpa [jump_rev] using hinv

theorem steps_inv (n : Nat) :
    ∀ (c0 c : Config), steps n c0 = some c →
      c0.st.memptr < c0.st.memory.length → c.st.memptr < c.st.memory.length := by
  induction n with
  | zero =>
    intro c0 c hsteps hinv
    simp only [steps, Option.some.injEq] at hsteps
    subst hsteps
    exact hinv
  | succ n ih =>
    intro c0 c hsteps hinv
    rw [steps] at hsteps
    split at hsteps
    · cases hs : step c0 with
      | none => rw [hs] at hsteps; simp at hsteps
      | some c1 =>
        rw [hs] at hsteps
        exact ih c1 c hsteps (step_inv c0 c1 hs hinv)
    · simp at hsteps

/-- C8: for a loaded program, the data pointer is a valid tape index at run
start (tape `[0]`, pointer 0) and after every completed iteration of the
execution loop. -/
theorem C8_pointer_in_bounds (src : List Nat) (s : State) (inp : List (Option Nat))
    (n : Nat) (c : Config)
    (hload : loadProgram src = some s)
    (hsteps : steps n (initConfig s inp) = some c) :
    c.st.memptr < c.st.memory.length := by
  have hinv0 : s.memptr < s.memory.length := by
    simp only [loadProgram, afterLex] at hload
    cases hres : resolveInst (foldInst (lex src)) with
    | none => rw [hres] at hload; exact absurd hload (by simp)
    | some r =>
      rw [hres] at hload
      simp only [Option.map_some', Option.some.injEq] at hload
      subst hload
      simp
  exact steps_inv n (initConfig s inp) c hsteps hinv0

/-- Witness for C8: one step of the program `++`. -/
theorem C8_pointer_in_bounds_witness :
    (⟨⟨0, 1, [2], [Token.Incriment 2], 2⟩, [], []⟩ : Config).st.memptr <
      (⟨⟨0, 1, [2], [Token.Incriment 2], 2⟩, [], []⟩ : Config).st.memory.length :=
  C8_pointer_in_bounds [43, 43] (⟨0, 0, [0], [Token.Incriment 2], 2⟩ : State) [] 1
    (⟨⟨0, 1, [2], [Token.Incriment 2], 2⟩, [], []⟩ : Config) (by decide) (by decide)

theorem inc_data_instptr (s : State) (a : Nat) : (inc_data s a).instptr = s.instptr := by
  simp only [inc_data]
  split <;> rfl

/-- C5 counterexample: in the resolved program for `++[-]` the `Close` at
index 3 points at the matching `Open` at index 1; executing it with a
nonzero cell sets the instruction pointer to 1 — the matching `[` itself —
not to 2 (just after it). -/
theorem C5_loop_close_target_cex :
    loadProgram [43, 43, 91, 45, 93] =
      some (⟨0, 0, [0],
        [Token.Incriment 2, Token.Open 3, Token.Decriment 1, Token.Close 1], 5⟩ : State) ∧
      rev_ofset [Token.Incriment 2, Token.Open 3, Token.Decriment 1, Token.Close 1] 3 =
        some 1 ∧
      steps 3 (initConfig (⟨0, 0, [0],
          [Token.Incriment 2, Token.Open 3, Token.Decriment 1, Token.Close 1], 5⟩ : State) []) =
        some (⟨⟨0, 3, [1],
          [Token.Incriment 2, Token.Open 3, Token.Decriment 1, Token.Close 1], 5⟩, [], []⟩ : Config) ∧
      step (⟨⟨0, 3, [1],
          [Token.Incriment 2, Token.Open 3, Token.Decriment 1, Token.Close 1], 5⟩, [], []⟩ : Config) =
        some (⟨⟨0, 1, [1],
          [Token.Incriment 2, Token.Open 3, Token.Decriment 1, Token.Close 1], 5⟩, [], []⟩ : Config) ∧
      (1 : Nat) ≠ 1 + 1 := by
  decide

/-- C5 amended: for a resolved program, `[` with cell 0 resumes just after
the matching `]` (stored target + 1); `]` with a nonzero cell sets the
instruction pointer to the stored target — the matching `[` itself, which
is then re-evaluated — and does not advance further that step; in all
remaining cases a completed iteration advances the instruction pointer by
1. -/
theorem C5_loop_semantics (l r : List Token) (c : Config) (v : Nat)
    (hres : resolveInst l = some r) (hinst : c.st.inst = r)
    (hcell : c.st.memory[c.st.memptr]? = some v) :
    (∀ t, r[c.st.instptr]? = some (.Open t) →
      (v = 0 → ∃ c', step c = some c' ∧ c'.st.instptr = t + 1 ∧
        r[t]? = some (.Close c.st.instptr)) ∧
      (v ≠ 0 → ∃ c', step c = some c' ∧ c'.st.instptr = c.st.instptr + 1)) ∧
    (∀ t, r[c.st.instptr]? = some (.Close t) →
      (v ≠ 0 → step c = some { c with st := jump_rev c.st t } ∧ t < c.st.instptr ∧
        r[t]? = some (.Open c.st.instptr)) ∧
      (v = 0 → ∃ c', step c = some c' ∧ c'.st.instptr = c.st.instptr + 1)) ∧
    (∀ t, r[c.st.instptr]? = some t → wt t = 0 →
      ∀ c', step c = some c' → c'.st.instptr = c.st.instptr + 1) := by
  refine ⟨?_, ?_, ?_⟩
  · intro t hopen
    have hget : c.st.inst[c.st.instptr]? = some (.Open t) := by rw [hinst]; exact hopen
    constructor
    · intro hv
      subst hv
      refine ⟨_, step_open_zero c t hget hcell, ?_, ?_⟩
      · simp [advance, jump_forward]
      · exact (resolved_open_pair l r c.st.instptr t hres hopen).2.2
    · intro hv
      exact ⟨_, step_open_nz c t v hget hcell hv, by simp [advance]⟩
  · intro t hclose
    have hget : c.st.inst[c.st.instptr]? = some (.Close t) := by rw [hinst]; exact hclose
    constructor
    · intro hv
      obtain ⟨h1, _, h3⟩ := resolved_close_pair l r c.st.instptr t hres hclose
      exact ⟨step_close_nz c t v hget hcell hv, h1, h3⟩
    · intro hv
      subst hv
      exact ⟨_, step_close_zero c t hget hcell, by simp [advance]⟩
  · intro t hgetr hwt c' hstep
    have hget : c.st.inst[c.st.instptr]? = some t := by rw [hinst]; exact hgetr
    cases t with
    | Open a => simp [wt] at hwt
    | Close a => simp [wt] at hwt
    | Right a =>
      rw [step_right c a hget] at hstep
      simp only [Option.some.injEq] at hstep
      subst hstep
      simp [advance, inc_data_instptr]
    | Left a =>
      rw [step_left c a hget] at hstep
      cases hd : dec_data c.st a with
      | none => rw [hd] at hstep; simp at hstep
      | some s' =>
        rw [hd] at hstep
        simp only [Option.map_some', Option.some.injEq] at hstep
        subst hstep
        unfold dec_data at hd
        split at hd
        · simp only [Option.some.injEq] at hd
          subst hd
          simp [advance]
        · simp at hd
    | Incriment a =>
      rw [step_incb c a hget] at hstep
      rw [incbyte_some c.st a v hcell] at hstep
      simp only [Option.map_some', Option.some.injEq] at hstep
      subst hstep
      simp [advance]
    | Decriment a =>
      rw [step_decb c a hget] at hstep
      rw [decbyte_some c.st a v hcell] at hstep
      simp only [Option.map_some', Option.some.injEq] at hstep
      subst hstep
      simp [advance]
    | Output =>
      rw [step_outb c hget] at hstep
      rw [outbyte_some c v hcell] at hstep
      simp only [Option.map_some', Option.some.injEq] at hstep
      subst hstep
      simp [advance]
    | Input =>
      rw [step_inb c hget] at hstep
      rw [inbyte_some c v hcell] at hstep
      simp only [Option.map_some', Option.some.injEq] at hstep
      subst hstep
      simp [advance]

/-- Witness for C5 at the `Close` of the resolved `++[-]` program with a
nonzero cell. -/
theorem C5_loop_semantics_witness :
    (∀ t, ([Token.Incriment 2, Token.Open 3, Token.Decriment 1,
        Token.Close 1] : List Token)[(3 : Nat)]? = some (Token.Open t) → True) ∧
      step (⟨⟨0, 3, [1],
        [Token.Incriment 2, Token.Open 3, Token.Decriment 1, Token.Close 1], 5⟩, [], []⟩ : Config) =
        some (⟨⟨0, 1, [1],
          [Token.Incriment 2, Token.Open 3, Token.Decriment 1, Token.Close 1], 5⟩, [], []⟩ : Config) ∧
      (1 : Nat) < 3 ∧
      ([Token.Incriment 2, Token.Open 3, Token.Decriment 1,
        Token.Close 1] : List Token)[(1 : Nat)]? = some (Token.Open 3) := by
  have h := C5_loop_semantics
    [Token.Incriment 2, Token.Open 1, Token.Decriment 1, Token.Close 1]
    [Token.Incriment 2, Token.Open 3, Token.Decriment 1, Token.Close 1]
    (⟨⟨0, 3, [1],
      [Token.Incriment 2, Token.Open 3, Token.Decriment 1, Token.Close 1], 5⟩, [], []⟩ : Config)
    1 (by decide) rfl (by decide)
  obtain ⟨hc, h1, h3⟩ := (h.2.1 1 (by decide)).1 (by decide)
  refine ⟨fun t ht => trivial, ?_, h1, h3⟩
  rw [hc]
  decide

/-! The folder produces a run-length block decomposition of its input. -/

theorem uOf_append (xs ys : List (Token × Nat)) : uOf (xs ++ ys) = uOf xs ++ uOf ys := by
  simp [uOf]

theorem set_last_eq (acc : List Token) (x : Token) (h : acc ≠ []) :
    acc.set (acc.length - 1) x = acc.dropLast ++ [x] := by
  induction acc with
  | nil => exact absurd rfl h
  | cons a as ih =>
    cases as with
    | nil => rfl
    | cons b bs =>
      have hne : (b :: bs) ≠ [] := by simp
      have hl : (a :: b :: bs).length - 1 = (b :: bs).length - 1 + 1 := by
        simp only [List.length_cons]
        omega
      rw [hl, List.set_cons_succ, ih hne, List.dropLast_cons₂]
      rfl

theorem foldStep_right_merge (acc : List Token) (b m : Nat)
    (hlast : acc.getLast? = some (.Right b)) :
    foldStep acc (.Right m) = acc.set (acc.length - 1) (.Right (b + 1)) := by
  simp [foldStep, hlast]

theorem foldStep_right_push (acc : List Token) (m : Nat)
    (hlast : ∀ b, acc.getLast? ≠ some (.Right b)) :
    foldStep acc (.Right m) = acc ++ [.Right 1] := by
  cases hl : acc.getLast? with
  | none => simp [foldStep, hl]
  | some u =>
    cases u with
    | Right b => exact absurd hl (hlast b)
    | Left b => simp [foldStep, hl]
    | Incriment b => simp [foldStep, hl]
    | Decriment b => simp [foldStep, hl]
    | Open b => simp [foldStep, hl]
    | Close b => simp [foldStep, hl]
    | Input => simp [foldStep, hl]
    | Output => simp [foldStep, hl]

theorem foldStep_left_merge (acc : List Token) (b m : Nat)
    (hlast : acc.getLast? = some (.Left b)) :
    foldStep acc (.Left m) = acc.set (acc.length - 1) (.Left (b + 1)) := by
  simp [foldStep, hlast]

theorem foldStep_left_push (acc : List Token) (m : Nat)
    (hlast : ∀ b, acc.getLast? ≠ some (.Left b)) :
    foldStep acc (.Left m) = acc ++ [.Left 1] := by
  cases hl : acc.getLast? with
  | none => simp [foldStep, hl]
  | some u =>
    cases u with
    | Right b => simp [foldStep, hl]
    | Left b => exact absurd hl (hlast b)
    | Incriment b => simp [foldStep, hl]
    | Decriment b => simp [foldStep, hl]
    | Open b => simp [foldStep, hl]
    | Close b => simp [foldStep, hl]
    | Input => simp [foldStep, hl]
    | Output => simp [foldStep, hl]

theorem foldStep_incr_merge (acc : List Token) (b m : Nat)
    (hlast : acc.getLast? = some (.Incriment b)) :
    foldStep acc (.Incriment m) = acc.set (acc.length - 1) (.Incriment (wadd8 b 1)) := by
  simp [foldStep, hlast]

theorem foldStep_incr_push (acc : List Token) (m : Nat)
    (hlast : ∀ b, acc.getLast? ≠ some (.Incriment b)) :
    foldStep acc (.Incriment m) = acc ++ [.Incriment 1] := by
  cases hl : acc.getLast? with
  | none => simp [foldStep, hl]
  | some u =>
    cases u with
    | Right b => simp [foldStep, hl]
    | Left b => simp [foldStep, hl]
    | Incriment b => exact absurd hl (hlast b)
    | Decriment b => simp [foldStep, hl]
    | Open b => simp [foldStep, hl]
    | Close b => simp [foldStep, hl]
    | Input => simp [foldStep, hl]
    | Output => simp [foldStep, hl]

theorem foldStep_decr_merge (acc : List Token) (b m : Nat)
    (hlast : acc.getLast? = some (.Decriment b)) :
    foldStep acc (.Decriment m) = acc.set (acc.length - 1) (.Decriment (wadd8 b 1)) := by
  simp [foldStep, hlast]

theorem foldStep_decr_push (acc : List Token) (m : Nat)
    (hlast : ∀ b, acc.getLast? ≠ some (.Decriment b)) :
    foldStep acc (.Decriment m) = acc ++ [.Decriment 1] := by
  cases hl : acc.getLast? with
  | none => simp [foldStep, hl]
  | some u =>
    cases u with
    | Right b => simp [foldStep, hl]
    | Left b => simp [foldStep, hl]
    | Incriment b => simp [foldStep, hl]
    | Decriment b => exact absurd hl (hlast b)
    | Open b => simp [foldStep, hl]
    | Close b => simp [foldStep, hl]
    | Input => simp [foldStep, hl]
    | Output => simp [foldStep, hl]

theorem getLast?_split {α : Type} (ds : List α) (p : α) (h : ds.getLast? = some p) :
    ds = ds.dropLast ++ [p] := by
  have hne : ds ≠ [] := by
    intro hh
    rw [hh] at h
    simp at h
  have h2 := List.getLast?_eq_getLast ds hne
  rw [h2] at h
  have h3 : ds.getLast hne = p := by simpa using h
  conv_lhs => rw [← List.dropLast_append_getLast hne, h3]

theorem lexByte_unit (b : Nat) (t : Token) (h : lexByte b = some t) : UnitTok t := by
  unfold lexByte at h
  split at h <;> first
    | (injection h with h
       subst h
       trivial)
    | exact absurd h (by simp)

theorem lex_unit (src : List Nat) : ∀ t ∈ lex src, UnitTok t := by
  intro t ht
  simp only [lex, List.mem_filterMap] at ht
  obtain ⟨b, _, hb⟩ := ht
  exact lexByte_unit b t hb

theorem fold_decomp_aux (rest : List Token) :
    ∀ ds : List (Token × Nat), (∀ t ∈ rest, UnitTok t) → (∀ p ∈ ds, GoodPair p) →
      ∃ ds', (∀ p ∈ ds', GoodPair p) ∧
        List.foldl foldStep (ds.map Prod.fst) rest = ds'.map Prod.fst ∧
        uOf ds' = uOf ds ++ rest := by
  induction rest with
  | nil =>
    intro ds _ hgood
    exact ⟨ds, hgood, rfl, by simp⟩
  | cons t rest ih =>
    intro ds hunit hgood
    have hu : UnitTok t := hunit t (by simp)
    have hur : ∀ t' ∈ rest, UnitTok t' := fun t' ht' => hunit t' (by simp [ht'])
    suffices hone : ∃ ds1, (∀ p ∈ ds1, GoodPair p) ∧
        foldStep (ds.map Prod.fst) t = ds1.map Prod.fst ∧
        uOf ds1 = uOf ds ++ [t] by
      obtain ⟨ds1, hg1, hf1, hu1⟩ := hone
      obtain ⟨ds', hg', hf', hu'⟩ := ih ds1 hur hg1
      refine ⟨ds', hg', ?_, ?_⟩
      · rw [List.foldl_cons, hf1, hf']
      · rw [hu', hu1, List.append_assoc]
        simp
    cases t with
    | Right m =>
      have hm : m = 1 := hu
      subst hm
      cases hlast : ds.getLast? with
      | none =>
        have hdsnil : ds = [] := List.getLast?_eq_none_iff.mp hlast
        subst hdsnil
        refine ⟨[(.Right 1, 1)], ?_, by simp [foldStep], by simp [uOf, unfoldTok]⟩
        intro p hp
        simp at hp
        subst hp
        exact ⟨rfl, by omega⟩
      | some p =>
        obtain ⟨q, n0⟩ := p
        have hmapl : (ds.map Prod.fst).getLast? = some q := by
          rw [List.getLast?_map, hlast]
          rfl
        have hsplit : ds = ds.dropLast ++ [(q, n0)] := getLast?_split ds (q, n0) hlast
        have hgq : GoodPair (q, n0) := hgood _ (by rw [hsplit]; simp)
        have haccne : ds.map Prod.fst ≠ [] := by
          intro hh
          rw [List.map_eq_nil_iff] at hh
          rw [hh] at hlast
          simp at hlast
        by_cases hq : ∃ b, q = Token.Right b
        · obtain ⟨b, rfl⟩ := hq
          obtain ⟨hb, hn⟩ : b = n0 ∧ 1 ≤ n0 := hgq
          refine ⟨ds.dropLast ++ [(.Right (b + 1), n0 + 1)], ?_, ?_, ?_⟩
          · intro p hp
            rcases List.mem_append.mp hp with hp | hp
            · exact hgood p (by rw [hsplit]; exact List.mem_append.mpr (Or.inl hp))
            · simp at hp
              subst hp
              exact ⟨by omega, by omega⟩
          · rw [foldStep_right_merge _ b 1 hmapl, set_last_eq _ _ haccne,
              List.map_append, ← List.map_dropLast]
            rfl
          · rw [uOf_append]
            conv_rhs => rw [hsplit, uOf_append, List.append_assoc]
            congr 1
            simp [uOf, unfoldTok, List.replicate_succ']
        · have hne : ∀ b, (ds.map Prod.fst).getLast? ≠ some (.Right b) := by
            intro b hcontra
            rw [hmapl] at hcontra
            exact hq ⟨b, by simpa using hcontra⟩
          refine ⟨ds ++ [(.Right 1, 1)], ?_, ?_, ?_⟩
          · intro p hp
            rcases List.mem_append.mp hp with hp | hp
            · exact hgood p hp
            · simp at hp
              subst hp
              exact ⟨rfl, by omega⟩
          · rw [foldStep_right_push _ 1 hne, List.map_append]
            rfl
          · rw [uOf_append]
            simp [uOf, unfoldTok]
    | Left m =>
      have hm : m = 1 := hu
      subst hm
      cases hlast : ds.getLast? with
      | none =>
        have hdsnil : ds = [] := List.getLast?_eq_none_iff.mp hlast
        subst hdsnil
        refine ⟨[(.Left 1, 1)], ?_, by simp [foldStep], by simp [uOf, unfoldTok]⟩
        intro p hp
        simp at hp
        subst hp
        exact ⟨rfl, by omega⟩
      | some p =>
        obtain ⟨q, n0⟩ := p
        have hmapl : (ds.map Prod.fst).getLast? = some q := by
          rw [List.getLast?_map, hlast]
          rfl
        have hsplit : ds = ds.dropLast ++ [(q, n0)] := getLast?_split ds (q, n0) hlast
        have hgq : GoodPair (q, n0) := hgood _ (by rw [hsplit]; simp)
        have haccne : ds.map Prod.fst ≠ [] := by
          intro hh
          rw [List.map_eq_nil_iff] at hh
          rw [hh] at hlast
          simp at hlast
        by_cases hq : ∃ b, q = Token.Left b
        · obtain ⟨b, rfl⟩ := hq
          obtain ⟨hb, hn⟩ : b = n0 ∧ 1 ≤ n0 := hgq
          refine ⟨ds.dropLast ++ [(.Left (b + 1), n0 + 1)], ?_, ?_, ?_⟩
          · intro p hp
            rcases List.mem_append.mp hp with hp | hp
            · exact hgood p (by rw [hsplit]; exact List.mem_append.mpr (Or.inl hp))
            · simp at hp
              subst hp
              exact ⟨by omega, by omega⟩
          · rw [foldStep_left_merge _ b 1 hmapl, set_last_eq _ _ haccne,
              List.map_append, ← List.map_dropLast]
            rfl
          · rw [uOf_append]
            conv_rhs => rw [hsplit, uOf_append, List.append_assoc]
            congr 1
            simp [uOf, unfoldTok, List.replicate_succ']
        · have hne : ∀ b, (ds.map Prod.fst).getLast? ≠ some (.Left b) := by
            intro b hcontra
            rw [hmapl] at hcontra
            exact hq ⟨b, by simpa using hcontra⟩
          refine ⟨ds ++ [(.Left 1, 1)], ?_, ?_, ?_⟩
          · intro p hp
            rcases List.mem_append.mp hp with hp | hp
            · exact hgood p hp
            · simp at hp
              subst hp
              exact ⟨rfl, by omega⟩
          · rw [foldStep_left_push _ 1 hne, List.map_append]
            rfl
          · rw [uOf_append]
            simp [uOf, unfoldTok]
    | Incriment m =>
      have hm : m = 1 := hu
      subst hm
      cases hlast : ds.getLast? with
      | none =>
        have hdsnil : ds = [] := List.getLast?_eq_none_iff.mp hlast
        subst hdsnil
        refine ⟨[(.Incriment 1, 1)], ?_, by simp [foldStep], by simp [uOf, unfoldTok]⟩
        intro p hp
        simp at hp
        subst hp
        exact ⟨rfl, by omega⟩
      | some p =>
        obtain ⟨q, n0⟩ := p
        have hmapl : (ds.map Prod.fst).getLast? = some q := by
          rw [List.getLast?_map, hlast]
          rfl
        have hsplit : ds = ds.dropLast ++ [(q, n0)] := getLast?_split ds (q, n0) hlast
        have hgq : GoodPair (q, n0) := hgood _ (by rw [hsplit]; simp)
        have haccne : ds.map Prod.fst ≠ [] := by
          intro hh
          rw [List.map_eq_nil_iff] at hh
          rw [hh] at hlast
          simp at hlast
        by_cases hq : ∃ b, q = Token.Incriment b
        · obtain ⟨b, rfl⟩ := hq
          obtain ⟨hb, hn⟩ : b = n0 % 256 ∧ 1 ≤ n0 := hgq
          refine ⟨ds.dropLast ++ [(.Incriment (wadd8 b 1), n0 + 1)], ?_, ?_, ?_⟩
          · intro p hp
            rcases List.mem_append.mp hp with hp | hp
            · exact hgood p (by rw [hsplit]; exact List.mem_append.mpr (Or.inl hp))
            · simp at hp
              subst hp
              refine ⟨?_, by omega⟩
              unfold wadd8
              omega
          · rw [foldStep_incr_merge _ b 1 hmapl, set_last_eq _ _ haccne,
              List.map_append, ← List.map_dropLast]
            rfl
          · rw [uOf_append]
            conv_rhs => rw [hsplit, uOf_append, List.append_assoc]
            congr 1
            simp [uOf, unfoldTok, List.replicate_succ']
        · have hne : ∀ b, (ds.map Prod.fst).getLast? ≠ some (.Incriment b) := by
            intro b hcontra
            rw [hmapl] at hcontra
            exact hq ⟨b, by simpa using hcontra⟩
          refine ⟨ds ++ [(.Incriment 1, 1)], ?_, ?_, ?_⟩
          · intro p hp
            rcases List.mem_append.mp hp with hp | hp
            · exact hgood p hp
            · simp at hp
              subst hp
              exact ⟨rfl, by omega⟩
          · rw [foldStep_incr_push _ 1 hne, List.map_append]
            rfl
          · rw [uOf_append]
            simp [uOf, unfoldTok]
    | Decriment m =>
      have hm : m = 1 := hu
      subst hm
      cases hlast : ds.getLast? with
      | none =>
        have hdsnil : ds = [] := List.getLast?_eq_none_iff.mp hlast
        subst hdsnil
        refine ⟨[(.Decriment 1, 1)], ?_, by simp [foldStep], by simp [uOf, unfoldTok]⟩
        intro p hp
        simp at hp
        subst hp
        exact ⟨rfl, by omega⟩
      | some p =>
        obtain ⟨q, n0⟩ := p
        have hmapl : (ds.map Prod.fst).getLast? = some q := by
          rw [List.getLast?_map, hlast]
          rfl
        have hsplit : ds = ds.dropLast ++ [(q, n0)] := getLast?_split ds (q, n0) hlast
        have hgq : GoodPair (q, n0) := hgood _ (by rw [hsplit]; simp)
        have haccne : ds.map Prod.fst ≠ [] := by
          intro hh
          rw [List.map_eq_nil_iff] at hh
          rw [hh] at hlast
          simp at hlast
        by_cases hq : ∃ b, q = Token.Decriment b
        · obtain ⟨b, rfl⟩ := hq
          obtain ⟨hb, hn⟩ : b = n0 % 256 ∧ 1 ≤ n0 := hgq
          refine ⟨ds.dropLast ++ [(.Decriment (wadd8 b 1), n0 + 1)], ?_, ?_, ?_⟩
          · intro p hp
            rcases List.mem_append.mp hp with hp | hp
            · exact hgood p (by rw [hsplit]; exact List.mem_append.mpr (Or.inl hp))
            · simp at hp
              subst hp
              refine ⟨?_, by omega⟩
              unfold wadd8
              omega
          · rw [foldStep_decr_merge _ b 1 hmapl, set_last_eq _ _ haccne,
              List.map_append, ← List.map_dropLast]
            rfl
          · rw [uOf_append]
            conv_rhs => rw [hsplit, uOf_append, List.append_assoc]
            congr 1
            simp [uOf, unfoldTok, List.replicate_succ']
        · have hne : ∀ b, (ds.map Prod.fst).getLast? ≠ some (.Decriment b) := by
            intro b hcontra
            rw [hmapl] at hcontra
            exact hq ⟨b, by simpa using hcontra⟩
          refine ⟨ds ++ [(.Decriment 1, 1)], ?_, ?_, ?_⟩
          · intro p hp
            rcases List.mem_append.mp hp with hp | hp
            · exact hgood p hp
            · simp at hp
              subst hp
              exact ⟨rfl, by omega⟩
          · rw [foldStep_decr_push _ 1 hne, List.map_append]
            rfl
          · rw [uOf_append]
            simp [uOf, unfoldTok]
    | Open a =>
      refine ⟨ds ++ [(.Open a, 1)], ?_, ?_, ?_⟩
      · intro p hp
        rcases List.mem_append.mp hp with hp | hp
        · exact hgood p hp
        · simp at hp
          subst hp
          rfl
      · simp [foldStep]
      · rw [uOf_append]
        simp [uOf, unfoldTok]
    | Close a =>
      refine ⟨ds ++ [(.Close a, 1)], ?_, ?_, ?_⟩
      · intro p hp
        rcases List.mem_append.mp hp with hp | hp
        · exact hgood p hp
        · simp at hp
          subst hp
          rfl
      · simp [foldStep]
      · rw [uOf_append]
        simp [uOf, unfoldTok]
    | Input =>
      refine ⟨ds ++ [(.Input, 1)], ?_, ?_, ?_⟩
      · intro p hp
        rcases List.mem_append.mp hp with hp | hp
        · exact hgood p hp
        · simp at hp
          subst hp
          rfl
      · simp [foldStep]
      · rw [uOf_append]
        simp [uOf, unfoldTok]
    | Output =>
      refine ⟨ds ++ [(.Output, 1)], ?_, ?_, ?_⟩
      · intro p hp
        rcases List.mem_append.mp hp with hp | hp
        · exact hgood p hp
        · simp at hp
          subst hp
          rfl
      · simp [foldStep]
      · rw [uOf_append]
        simp [uOf, unfoldTok]

theorem fold_decomp (u : List Token) (hunit : ∀ t ∈ u, UnitTok t) :
    ∃ ds, (∀ p ∈ ds, GoodPair p) ∧ foldInst u = ds.map Prod.fst ∧ uOf ds = u := by
  obtain ⟨ds, h1, h2, h3⟩ := fold_decomp_aux u [] hunit (by simp)
  refine ⟨ds, h1, ?_, ?_⟩
  · simpa [foldInst] using h2
  · simpa [uOf] using h3

/-! Geometry of the block decomposition. -/

theorem blkStart_zero (ds : List (Token × Nat)) : blkStart ds 0 = 0 := by
  simp [blkStart]

theorem blkStart_succ (ds : List (Token × Nat)) (b : Nat) (p : Token × Nat)
    (h : ds[b]? = some p) :
    blkStart ds (b + 1) = blkStart ds b + (unfoldTok p).length := by
  unfold blkStart
  rw [List.take_succ, h]
  simp

theorem blkStart_cons_succ (q : Token × Nat) (ds : List (Token × Nat)) (b : Nat) :
    blkStart (q :: ds) (b + 1) = (unfoldTok q).length + blkStart ds b := by
  unfold blkStart
  rw [List.take_succ_cons]
  simp

theorem uOf_cons (q : Token × Nat) (ds : List (Token × Nat)) :
    uOf (q :: ds) = unfoldTok q ++ uOf ds := by
  simp [uOf]

theorem blkStart_length (ds : List (Token × Nat)) :
    blkStart ds ds.length = (uOf ds).length := by
  unfold blkStart uOf
  rw [List.take_length, List.length_flatten]

theorem unfold_len_pos (p : Token × Nat) (h : GoodPair p) :
    1 ≤ (unfoldTok p).length := by
  obtain ⟨t, n⟩ := p
  cases t with
  | Right m =>
    have h2 : m = n ∧ 1 ≤ n := h
    simp [unfoldTok]
    omega
  | Left m =>
    have h2 : m = n ∧ 1 ≤ n := h
    simp [unfoldTok]
    omega
  | Incriment m =>
    have h2 : m = n % 256 ∧ 1 ≤ n := h
    simp [unfoldTok]
    omega
  | Decriment m =>
    have h2 : m = n % 256 ∧ 1 ≤ n := h
    simp [unfoldTok]
    omega
  | Open m => simp [unfoldTok]
  | Close m => simp [unfoldTok]
  | Input => simp [unfoldTok]
  | Output => simp [unfoldTok]

theorem blkStart_le (ds : List (Token × Nat)) (b b' : Nat) (h : b ≤ b') :
    blkStart ds b ≤ blkStart ds b' := by
  have hsum : ∀ (L : List Nat) (n : Nat), (L.take n).sum ≤ L.sum := by
    intro L n
    conv_rhs => rw [← List.take_append_drop n L]
    rw [List.sum_append]
    omega
  unfold blkStart
  have h1 : ds.take b = (ds.take b').take b := by
    rw [List.take_take]
    congr 1
    omega
  rw [h1, List.map_take, List.map_take]
  exact hsum _ b

theorem blkStart_lt_succ (ds : List (Token × Nat)) (hg : ∀ p ∈ ds, GoodPair p)
    (b : Nat) (hb : b < ds.length) : blkStart ds b < blkStart ds (b + 1) := by
  have hget : ds[b]? = some ds[b] := List.getElem?_eq_getElem hb
  rw [blkStart_succ ds b _ hget]
  have := unfold_len_pos ds[b] (hg _ (List.getElem_mem hb))
  omega

theorem blkStart_strict (ds : List (Token × Nat)) (hg : ∀ p ∈ ds, GoodPair p)
    (b b' : Nat) (hbb : b < b') (hble : b' ≤ ds.length) :
    blkStart ds b < blkStart ds b' := by
  have key : ∀ d, b + 1 + d ≤ ds.length → blkStart ds b < blkStart ds (b + 1 + d) := by
    intro d
    induction d with
    | zero =>
      intro hle
      simpa using blkStart_lt_succ ds hg b (by omega)
    | succ d ihd =>
      intro hle
      calc blkStart ds b < blkStart ds (b + 1 + d) := ihd (by omega)
        _ < blkStart ds (b + 1 + d + 1) := blkStart_lt_succ ds hg (b + 1 + d) (by omega)
  have hd := key (b' - b - 1) (by omega)
  have : b + 1 + (b' - b - 1) = b' := by omega
  rwa [this] at hd

theorem uOf_get (ds : List (Token × Nat)) :
    ∀ (b : Nat) (p : Token × Nat) (o : Nat), ds[b]? = some p →
      o < (unfoldTok p).length →
      (uOf ds)[blkStart ds b + o]? = (unfoldTok p)[o]? := by
  induction ds with
  | nil =>
    intro b p o h _
    simp at h
  | cons q ds ih =>
    intro b p o h ho
    cases b with
    | zero =>
      have hq : q = p := by simpa using h
      subst hq
      rw [uOf_cons, blkStart_zero, Nat.zero_add]
      exact List.getElem?_append_left ho
    | succ b =>
      have h' : ds[b]? = some p := by simpa using h
      rw [uOf_cons, blkStart_cons_succ]
      rw [show (unfoldTok q).length + blkStart ds b + o =
        (unfoldTok q).length + (blkStart ds b + o) from by omega]
      rw [List.getElem?_append_right (by omega)]
      rw [Nat.add_sub_cancel_left]
      exact ih b p o h' ho

theorem uOf_take (ds : List (Token × Nat)) :
    ∀ b : Nat, ((ds.take b).map unfoldTok).flatten = (uOf ds).take (blkStart ds b) := by
  induction ds with
  | nil => intro b; simp [uOf, blkStart]
  | cons q ds ih =>
    intro b
    cases b with
    | zero => simp [blkStart_zero]
    | succ b =>
      rw [List.take_succ_cons, uOf_cons, blkStart_cons_succ, List.take_append,
        List.map_cons, List.flatten_cons, ih b]

theorem block_wt (p : Token × Nat) (h : GoodPair p) :
    ((unfoldTok p).map wt).sum = wt p.1 := by
  obtain ⟨t, n⟩ := p
  cases t <;> simp [unfoldTok, wt]

theorem hgt_blk (ds : List (Token × Nat)) (hg : ∀ p ∈ ds, GoodPair p) (b : Nat) :
    hgt (uOf ds) (blkStart ds b) = hgt (ds.map Prod.fst) b := by
  unfold hgt
  rw [← uOf_take, List.map_flatten, List.sum_flatten, ← List.map_take]
  simp only [List.map_map]
  refine congrArg List.sum (List.map_congr_left ?_)
  intro p hp
  simpa using block_wt p (hg p (List.mem_of_mem_take hp))

theorem uOf_drop (ds : List (Token × Nat)) :
    ∀ (b : Nat) (p : Token × Nat), ds[b]? = some p →
      (uOf ds).drop (blkStart ds b) = unfoldTok p ++ ((ds.drop (b + 1)).map unfoldTok).flatten := by
  induction ds with
  | nil =>
    intro b p h
    simp at h
  | cons q ds ih =>
    intro b p h
    cases b with
    | zero =>
      have hq : q = p := by simpa using h
      subst hq
      rw [uOf_cons, blkStart_zero, List.drop_zero]
      simp [uOf]
    | succ b =>
      have h' : ds[b]? = some p := by simpa using h
      rw [uOf_cons, blkStart_cons_succ, List.drop_append, List.drop_succ_cons]
      exact ih b p h'

theorem hgt_u_inside (ds : List (Token × Nat)) (b : Nat) (p : Token × Nat)
    (hb : ds[b]? = some p) (o : Nat) (ho : o ≤ (unfoldTok p).length) :
    hgt (uOf ds) (blkStart ds b + o) =
      hgt (uOf ds) (blkStart ds b) + (((unfoldTok p).take o).map wt).sum := by
  unfold hgt
  rw [List.take_add, List.map_append, List.sum_append]
  congr 2
  rw [uOf_drop ds b p hb, List.take_append_of_le_length ho]

theorem pos_classify (ds : List (Token × Nat)) :
    ∀ k, k < (uOf ds).length → ∃ b p, ds[b]? = some p ∧
      blkStart ds b ≤ k ∧ k < blkStart ds b + (unfoldTok p).length := by
  induction ds with
  | nil =>
    intro k hk
    simp [uOf] at hk
  | cons q ds ih =>
    intro k hk
    by_cases hq : k < (unfoldTok q).length
    · exact ⟨0, q, by simp, by simp [blkStart_zero], by simpa [blkStart_zero]⟩
    · have hlen : (uOf (q :: ds)).length = (unfoldTok q).length + (uOf ds).length := by
        rw [uOf_cons, List.length_append]
      have hk' : k - (unfoldTok q).length < (uOf ds).length := by omega
      obtain ⟨b, p, h1, h2, h3⟩ := ih _ hk'
      refine ⟨b + 1, p, by simpa using h1, ?_, ?_⟩
      · rw [blkStart_cons_succ]
        omega
      · rw [blkStart_cons_succ]
        omega

theorem sum_wt_zero (L : List Token) (h : ∀ u ∈ L, wt u = 0) :
    (L.map wt).sum = 0 := by
  induction L with
  | nil => simp
  | cons a L ih =>
    rw [List.map_cons, List.sum_cons, h a (by simp), ih (fun u hu => h u (by simp [hu]))]
    simp

theorem unfold_wt (p : Token × Nat) : ∀ u ∈ unfoldTok p, wt u = wt p.1 := by
  obtain ⟨t, n⟩ := p
  cases t <;> intro u hu <;> simp [unfoldTok] at hu <;> simp [hu, wt]

theorem len_gt_one_wt (p : Token × Nat) (h : GoodPair p)
    (hl : 2 ≤ (unfoldTok p).length) : wt p.1 = 0 := by
  obtain ⟨t, n⟩ := p
  cases t with
  | Right m => simp [wt]
  | Left m => simp [wt]
  | Incriment m => simp [wt]
  | Decriment m => simp [wt]
  | Open m =>
    simp [unfoldTok] at hl
  | Close m =>
    simp [unfoldTok] at hl
  | Input =>
    simp [unfoldTok] at hl
  | Output =>
    simp [unfoldTok] at hl

theorem hgt_u_classify (ds : List (Token × Nat)) (hg : ∀ p ∈ ds, GoodPair p)
    (k : Nat) (hk : k ≤ (uOf ds).length) :
    (∃ b, b ≤ ds.length ∧ k = blkStart ds b ∧
      hgt (uOf ds) k = hgt (ds.map Prod.fst) b) ∨
    (∃ b p, ds[b]? = some p ∧ blkStart ds b < k ∧
      k < blkStart ds b + (unfoldTok p).length ∧
      hgt (uOf ds) k = hgt (ds.map Prod.fst) b ∧
      hgt (ds.map Prod.fst) (b + 1) = hgt (ds.map Prod.fst) b) := by
  rcases Nat.eq_or_lt_of_le hk with heq | hlt
  · left
    refine ⟨ds.length, le_refl _, ?_, ?_⟩
    · rw [heq, blkStart_length]
    · rw [heq, ← blkStart_length, hgt_blk ds hg]
  · obtain ⟨b, p, hb, h1, h2⟩ := pos_classify ds k hlt
    have hbl : b < ds.length := (List.getElem?_eq_some.mp hb).1
    have hpmem : p ∈ ds := by
      obtain ⟨hbb, hpe⟩ := List.getElem?_eq_some.mp hb
      rw [← hpe]
      exact List.getElem_mem hbb
    rcases Nat.eq_or_lt_of_le h1 with hbk | hbk
    · left
      exact ⟨b, by omega, hbk.symm, by rw [← hbk, hgt_blk ds hg b]⟩
    · right
      have hlen2 : 2 ≤ (unfoldTok p).length := by omega
      have hwt0 : wt p.1 = 0 := len_gt_one_wt p (hg p hpmem) hlen2
      have hin := hgt_u_inside ds b p hb (k - blkStart ds b) (by omega)
      have hz : (((unfoldTok p).take (k - blkStart ds b)).map wt).sum = 0 :=
        sum_wt_zero _ (fun u hu => by
          rw [unfold_wt p u (List.mem_of_mem_take hu), hwt0])
      rw [show blkStart ds b + (k - blkStart ds b) = k from by omega] at hin
      refine ⟨b, p, hb, hbk, h2, ?_, ?_⟩
      · rw [hin, hz, hgt_blk ds hg b]
        simp
      · have hmf : (ds.map Prod.fst)[b]? = some p.1 := by
          rw [List.getElem?_map, hb]
          rfl
        rw [hgt_succ _ b p.1 hmf, hwt0]
        simp

theorem bracket_block (ds : List (Token × Nat)) (hg : ∀ p ∈ ds, GoodPair p)
    (b : Nat) (t : Token) (hf : (ds.map Prod.fst)[b]? = some t) (hw : wt t ≠ 0) :
    ∃ p, ds[b]? = some p ∧ p.1 = t ∧ unfoldTok p = [t] ∧
      blkStart ds (b + 1) = blkStart ds b + 1 ∧
      (uOf ds)[blkStart ds b]? = some t := by
  rw [List.getElem?_map] at hf
  cases hb : ds[b]? with
  | none => rw [hb] at hf; simp at hf
  | some p =>
    rw [hb] at hf
    have hp1 : p.1 = t := by simpa using hf
    have hsing : unfoldTok p = [t] := by
      obtain ⟨q, n⟩ := p
      simp only at hp1
      subst hp1
      cases q with
      | Right m => simp [wt] at hw
      | Left m => simp [wt] at hw
      | Incriment m => simp [wt] at hw
      | Decriment m => simp [wt] at hw
      | Open m => simp [unfoldTok]
      | Close m => simp [unfoldTok]
      | Input => simp [wt] at hw
      | Output => simp [wt] at hw
    refine ⟨p, rfl, hp1, hsing, ?_, ?_⟩
    · rw [blkStart_succ ds b p hb, hsing]
      simp
    · have hg0 := uOf_get ds b p 0 hb (by simp [hsing])
      rw [Nat.add_zero] at hg0
      rw [hg0, hsing]
      rfl

/-! Bracket matching transfers between the folded program and its unfolded
form: blocks of movers have bracket weight 0, so the nesting heights agree
at block boundaries and the scan targets correspond. -/

theorem fwd_transfer (ds : List (Token × Nat)) (hg : ∀ p ∈ ds, GoodPair p)
    (b j a : Nat)
    (hfb : (ds.map Prod.fst)[b]? = some (.Open a))
    (hfwd : forward_ofset (ds.map Prod.fst) b = some j) :
    forward_ofset (uOf ds) (blkStart ds b) = some (blkStart ds j) ∧
      ∃ c, (ds.map Prod.fst)[j]? = some (.Close c) := by
  obtain ⟨hbj, hjl, heq, hmin, c, hclose⟩ :=
    fwdGo_sound (ds.map Prod.fst) _ 1 b j rfl (by omega) hfwd
  have hjds : j < ds.length := by
    rw [List.length_map] at hjl
    exact hjl
  have hbds : b < ds.length := by omega
  obtain ⟨pb, hpb, hpb1, hpbs, hbsucc, hub⟩ :=
    bracket_block ds hg b (.Open a) hfb (by simp [wt])
  obtain ⟨pj, hpj, hpj1, hpjs, hjsucc, huj⟩ :=
    bracket_block ds hg j (.Close c) hclose (by simp [wt])
  have hminf : ∀ m, b < m → m ≤ j →
      hgt (ds.map Prod.fst) (b + 1) - 1 < hgt (ds.map Prod.fst) m := by
    intro m hm1 hm2
    rcases Nat.eq_or_lt_of_le (Nat.succ_le_of_lt hm1) with h | h
    · rw [show m = b + 1 from by omega]
      omega
    · have := hmin (m - 1) (by omega) (by omega)
      rw [show m - 1 + 1 = m from by omega] at this
      omega
  have hphi : blkStart ds b < blkStart ds j := blkStart_strict ds hg b j hbj (by omega)
  have hphij : blkStart ds j < (uOf ds).length := by
    have h1 : blkStart ds j < blkStart ds (j + 1) := blkStart_lt_succ ds hg j hjds
    have h2 : blkStart ds (j + 1) ≤ blkStart ds ds.length := blkStart_le ds _ _ (by omega)
    rw [blkStart_length] at h2
    omega
  refine ⟨?_, ⟨c, hclose⟩⟩
  apply fwdGo_complete (uOf ds) _ 1 (blkStart ds b) (blkStart ds j) rfl (by omega)
    hphi hphij
  · rw [show blkStart ds j + 1 = blkStart ds (j + 1) from by omega,
      show blkStart ds b + 1 = blkStart ds (b + 1) from by omega,
      hgt_blk ds hg, hgt_blk ds hg]
    omega
  · intro k hk1 hk2
    have hk3 : k + 1 ≤ (uOf ds).length := by omega
    rw [show blkStart ds b + 1 = blkStart ds (b + 1) from by omega, hgt_blk ds hg]
    rcases hgt_u_classify ds hg (k + 1) hk3 with ⟨b', hb'le, hkeq, hheq⟩ |
      ⟨b', p', hb', h1, h2, hheq, hstepf⟩
    · have hb'gt : b < b' := by
        by_contra hcon
        have := blkStart_le ds b' b (by omega)
        omega
    
      have hb'le2 : b' ≤ j := by
        by_contra hcon
        have h4 : blkStart ds (j + 1) ≤ blkStart ds b' := blkStart_le ds _ _ (by omega)
        omega
      have := hminf b' hb'gt hb'le2
      rw [hheq]
      omega
    · have hb'succ : blkStart ds b' + (unfoldTok p').length = blkStart ds (b' + 1) :=
        (blkStart_succ ds b' p' hb').symm
      have hb'gt : b < b' := by
        by_contra hcon
        have h4 : blkStart ds (b' + 1) ≤ blkStart ds (b + 1) := blkStart_le ds _ _ (by omega)
        omega
      have hb'lt : b' < j := by
        by_contra hcon
        have h4 : blkStart ds j ≤ blkStart ds b' := blkStart_le ds _ _ (by omega)
        omega
      have := hminf b' hb'gt (by omega)
      rw [hheq]
      omega

theorem rev_transfer (ds : List (Token × Nat)) (hg : ∀ p ∈ ds, GoodPair p)
    (b i a : Nat)
    (hfb : (ds.map Prod.fst)[b]? = some (.Close a))
    (hrev : rev_ofset (ds.map Prod.fst) b = some i) :
    rev_ofset (uOf ds) (blkStart ds b) = some (blkStart ds i) ∧
      ∃ c, (ds.map Prod.fst)[i]? = some (.Open c) := by
  obtain ⟨hib, heq, hmin, c, hopen⟩ :=
    revGo_sound (ds.map Prod.fst) b 1 i (by omega) hrev
  have hbds : b < ds.length := by
    have := (List.getElem?_eq_some.mp hfb).1
    rw [List.length_map] at this
    exact this
  obtain ⟨pb, hpb, hpb1, hpbs, hbsucc, hub⟩ :=
    bracket_block ds hg b (.Close a) hfb (by simp [wt])
  obtain ⟨pi, hpi, hpi1, hpis, hisucc, hui⟩ :=
    bracket_block ds hg i (.Open c) hopen (by simp [wt])
  have hminr : ∀ m, i < m → m ≤ b →
      hgt (ds.map Prod.fst) b - 1 < hgt (ds.map Prod.fst) m := by
    intro m hm1 hm2
    rcases Nat.eq_or_lt_of_le hm2 with h | h
    · rw [h]
      omega
    · have := hmin m hm1 h
      omega
  have hphi : blkStart ds i < blkStart ds b := blkStart_strict ds hg i b hib (by omega)
  have hphib : blkStart ds b ≤ (uOf ds).length := by
    have h2 : blkStart ds b ≤ blkStart ds ds.length := blkStart_le ds _ _ (by omega)
    rw [blkStart_length] at h2
    exact h2
  refine ⟨?_, ⟨c, hopen⟩⟩
  apply revGo_complete (uOf ds) (blkStart ds b) 1 (blkStart ds i) (by omega) hphi hphib
  · rw [hgt_blk ds hg, hgt_blk ds hg]
    omega
  · intro k hk1 hk2
    have hk3 : k ≤ (uOf ds).length := by omega
    rw [hgt_blk ds hg]
    rcases hgt_u_classify ds hg k hk3 with ⟨b', hb'le, hkeq, hheq⟩ |
      ⟨b', p', hb', h1, h2, hheq, hstepf⟩
    · have hb'gt : i < b' := by
        by_contra hcon
        have := blkStart_le ds b' i (by omega)
        omega
      have hb'lt : b' < b := by
        by_contra hcon
        have := blkStart_le ds b b' (by omega)
        omega
      have := hminr b' hb'gt (by omega)
      rw [hheq]
      omega
    · have hb'succ : blkStart ds b' + (unfoldTok p').length = blkStart ds (b' + 1) :=
        (blkStart_succ ds b' p' hb').symm
      have hb'gt : i < b' := by
        by_contra hcon
        have h4 : blkStart ds (b' + 1) ≤ blkStart ds (i + 1) := blkStart_le ds _ _ (by omega)
        omega
      have hb'lt : b' < b := by
        by_contra hcon
        have h4 : blkStart ds b ≤ blkStart ds b' := blkStart_le ds _ _ (by omega)
        omega
      have := hminr b' hb'gt (by omega)
      rw [hheq]
      omega

/-! Tape growth algebra: one `inc_data` by `a` equals `a` unit `inc_data`s. -/

theorem grow_of_lt (mem : List Nat) (q : Nat) (h : q < mem.length) : grow mem q = mem := by
  unfold grow
  rw [if_neg (by omega)]

theorem grow_of_ge (mem : List Nat) (q : Nat) (h : mem.length ≤ q) :
    grow mem q = mem ++ List.replicate (q + 1 - mem.length) 0 := by
  unfold grow
  rw [if_pos (by omega)]

theorem grow_grow (mem : List Nat) (q q' : Nat) (h : q ≤ q') :
    grow (grow mem q) q' = grow mem q' := by
  rcases Nat.lt_or_ge q mem.length with hq | hq
  · rw [grow_of_lt mem q hq]
  · rw [grow_of_ge mem q hq]
    rcases Nat.eq_or_lt_of_le h with hq' | hq'
    · subst hq'
      rw [grow_of_lt _ q (by
        rw [List.length_append, List.length_replicate]
        omega), grow_of_ge mem q hq]
    · rw [grow_of_ge _ q' (by
        rw [List.length_append, List.length_replicate]
        omega), grow_of_ge mem q' (by omega), List.append_assoc, ← List.replicate_add]
      congr 2
      rw [List.length_append, List.length_replicate]
      omega

theorem inc_data_eq (s : State) (a : Nat) :
    inc_data s a = { s with
      memptr := s.memptr + a,
      memory := grow s.memory (s.memptr + a) } := by
  unfold inc_data grow
  simp only [pushZeros_eq]
  rcases Nat.lt_or_ge (s.memptr + a) s.memory.length with h | h
  · rw [if_neg (by omega), if_neg (by omega)]
  · rw [if_pos (by omega), if_pos (by omega)]
    have heq : s.memptr + a - s.memory.length + 1 =
        s.memptr + a + 1 - s.memory.length := by omega
    rw [heq]

theorem steps_right_block (k : Nat) :
    ∀ (mp ip : Nat) (mem : List Nat) (inst : List Token) (lst : Nat)
      (inp : List (Option Nat)) (out : List Nat), 1 ≤ k →
      (∀ i, i < k → inst[ip + i]? = some (.Right 1)) →
      ip + k ≤ inst.length →
      steps k (⟨⟨mp, ip, mem, inst, lst⟩, inp, out⟩ : Config) =
        some (⟨⟨mp + k, ip + k, grow mem (mp + k), inst, lst⟩, inp, out⟩ : Config) := by
  induction k with
  | zero =>
    intro mp ip mem inst lst inp out h1 _ _
    omega
  | succ k ih =>
    intro mp ip mem inst lst inp out _ hcontent hlen
    have hget : inst[ip]? = some (Token.Right 1) := by simpa using hcontent 0 (by omega)
    have hstep1 :
        step (⟨⟨mp, ip, mem, inst, lst⟩, inp, out⟩ : Config) =
          some (⟨⟨mp + 1, ip + 1, grow mem (mp + 1), inst, lst⟩, inp, out⟩ : Config) := by
      rw [step_right (⟨⟨mp, ip, mem, inst, lst⟩, inp, out⟩ : Config) 1 hget, inc_data_eq]
      rfl
    rw [steps, if_pos (show ip < inst.length from by omega), hstep1]
    show steps k (⟨⟨mp + 1, ip + 1, grow mem (mp + 1), inst, lst⟩, inp, out⟩ : Config) =
      some (⟨⟨mp + (k + 1), ip + (k + 1), grow mem (mp + (k + 1)), inst, lst⟩, inp,
        out⟩ : Config)
    rcases Nat.eq_zero_or_pos k with hk0 | hk0
    · subst hk0
      rfl
    · have hcontent1 : ∀ i, i < k → inst[ip + 1 + i]? = some (Token.Right 1) := by
        intro i hi
        rw [show ip + 1 + i = ip + (1 + i) from by omega]
        exact hcontent (1 + i) (by omega)
      rw [ih (mp + 1) (ip + 1) (grow mem (mp + 1)) inst lst inp out hk0 hcontent1 (by omega)]
      rw [grow_grow _ _ _ (by omega)]
      rw [show mp + 1 + k = mp + (k + 1) from by omega,
        show ip + 1 + k = ip + (k + 1) from by omega]

theorem steps_left_block (k : Nat) :
    ∀ (mp ip : Nat) (mem : List Nat) (inst : List Token) (lst : Nat)
      (inp : List (Option Nat)) (out : List Nat), k ≤ mp →
      (∀ i, i < k → inst[ip + i]? = some (.Left 1)) →
      ip + k ≤ inst.length →
      steps k (⟨⟨mp, ip, mem, inst, lst⟩, inp, out⟩ : Config) =
        some (⟨⟨mp - k, ip + k, mem, inst, lst⟩, inp, out⟩ : Config) := by
  induction k with
  | zero =>
    intro mp ip mem inst lst inp out _ _ _
    rfl
  | succ k ih =>
    intro mp ip mem inst lst inp out hk hcontent hlen
    have hget : inst[ip]? = some (Token.Left 1) := by simpa using hcontent 0 (by omega)
    have hstep1 :
        step (⟨⟨mp, ip, mem, inst, lst⟩, inp, out⟩ : Config) =
          some (⟨⟨mp - 1, ip + 1, mem, inst, lst⟩, inp, out⟩ : Config) := by
      rw [step_left (⟨⟨mp, ip, mem, inst, lst⟩, inp, out⟩ : Config) 1 hget,
        dec_data_some _ 1 (show 1 ≤ mp from by omega)]
      rfl
    rw [steps, if_pos (show ip < inst.length from by omega), hstep1]
    show steps k (⟨⟨mp - 1, ip + 1, mem, inst, lst⟩, inp, out⟩ : Config) =
      some (⟨⟨mp - (k + 1), ip + (k + 1), mem, inst, lst⟩, inp, out⟩ : Config)
    have hcontent1 : ∀ i, i < k → inst[ip + 1 + i]? = some (Token.Left 1) := by
      intro i hi
      rw [show ip + 1 + i = ip + (1 + i) from by omega]
      exact hcontent (1 + i) (by omega)
    rw [ih (mp - 1) (ip + 1) mem inst lst inp out (by omega) hcontent1 (by omega)]
    rw [show mp - 1 - k = mp - (k + 1) from by omega,
      show ip + 1 + k = ip + (k + 1) from by omega]

theorem steps_inc_block (k : Nat) :
    ∀ (mp ip : Nat) (mem : List Nat) (inst : List Token) (lst : Nat)
      (inp : List (Option Nat)) (out : List Nat) (v : Nat), 1 ≤ k →
      (∀ i, i < k → inst[ip + i]? = some (.Incriment 1)) →
      ip + k ≤ inst.length → mem[mp]? = some v →
      steps k (⟨⟨mp, ip, mem, inst, lst⟩, inp, out⟩ : Config) =
        some (⟨⟨mp, ip + k, mem.set mp ((v + k) % 256), inst, lst⟩, inp, out⟩ : Config) := by
  induction k with
  | zero =>
    intro mp ip mem inst lst inp out v h1 _ _ _
    omega
  | succ k ih =>
    intro mp ip mem inst lst inp out v _ hcontent hlen hv
    have hmp : mp < mem.length := (List.getElem?_eq_some.mp hv).1
    have hget : inst[ip]? = some (Token.Incriment 1) := by simpa using hcontent 0 (by omega)
    have hstep1 :
        step (⟨⟨mp, ip, mem, inst, lst⟩, inp, out⟩ : Config) =
          some (⟨⟨mp, ip + 1, mem.set mp ((v + 1) % 256), inst, lst⟩, inp, out⟩ : Config) := by
      rw [step_incb (⟨⟨mp, ip, mem, inst, lst⟩, inp, out⟩ : Config) 1 hget,
        incbyte_some _ 1 v hv]
      rfl
    rw [steps, if_pos (show ip < inst.length from by omega), hstep1]
    show steps k
        (⟨⟨mp, ip + 1, mem.set mp ((v + 1) % 256), inst, lst⟩, inp, out⟩ : Config) =
      some (⟨⟨mp, ip + (k + 1), mem.set mp ((v + (k + 1)) % 256), inst, lst⟩, inp,
        out⟩ : Config)
    rcases Nat.eq_zero_or_pos k with hk0 | hk0
    · subst hk0
      rfl
    · have hcontent1 : ∀ i, i < k → inst[ip + 1 + i]? = some (Token.Incriment 1) := by
        intro i hi
        rw [show ip + 1 + i = ip + (1 + i) from by omega]
        exact hcontent (1 + i) (by omega)
      have hv1 : (mem.set mp ((v + 1) % 256))[mp]? = some ((v + 1) % 256) :=
        List.getElem?_set_eq_of_lt _ (by simpa using hmp)
      rw [ih mp (ip + 1) (mem.set mp ((v + 1) % 256)) inst lst inp out ((v + 1) % 256)
        hk0 hcontent1 (by omega) hv1]
      rw [List.set_set]
      rw [show ((v + 1) % 256 + k) % 256 = (v + (k + 1)) % 256 from by omega,
        show ip + 1 + k = ip + (k + 1) from by omega]

theorem steps_dec_block (k : Nat) :
    ∀ (mp ip : Nat) (mem : List Nat) (inst : List Token) (lst : Nat)
      (inp : List (Option Nat)) (out : List Nat) (v : Nat), 1 ≤ k →
      (∀ i, i < k → inst[ip + i]? = some (.Decriment 1)) →
      ip + k ≤ inst.length → mem[mp]? = some v →
      steps k (⟨⟨mp, ip, mem, inst, lst⟩, inp, out⟩ : Config) =
        some (⟨⟨mp, ip + k, mem.set mp ((v + 255 * k) % 256), inst, lst⟩, inp,
          out⟩ : Config) := by
  induction k with
  | zero =>
    intro mp ip mem inst lst inp out v h1 _ _ _
    omega
  | succ k ih =>
    intro mp ip mem inst lst inp out v _ hcontent hlen hv
    have hmp : mp < mem.length := (List.getElem?_eq_some.mp hv).1
    have hget : inst[ip]? = some (Token.Decriment 1) := by simpa using hcontent 0 (by omega)
    have hsub : wsub8 v 1 = (v + 255) % 256 := by
      unfold wsub8
      omega
    have hstep1 :
        step (⟨⟨mp, ip, mem, inst, lst⟩, inp, out⟩ : Config) =
          some (⟨⟨mp, ip + 1, mem.set mp ((v + 255) % 256), inst, lst⟩, inp, out⟩ : Config) := by
      rw [step_decb (⟨⟨mp, ip, mem, inst, lst⟩, inp, out⟩ : Config) 1 hget,
        decbyte_some _ 1 v hv, hsub]
      rfl
    rw [steps, if_pos (show ip < inst.length from by omega), hstep1]
    show steps k
        (⟨⟨mp, ip + 1, mem.set mp ((v + 255) % 256), inst, lst⟩, inp, out⟩ : Config) =
      some (⟨⟨mp, ip + (k + 1), mem.set mp ((v + 255 * (k + 1)) % 256), inst, lst⟩, inp,
        out⟩ : Config)
    rcases Nat.eq_zero_or_pos k with hk0 | hk0
    · subst hk0
      have h255 : (v + 255) % 256 = (v + 255 * (0 + 1)) % 256 := by omega
      rw [← h255]
      rfl
    · have hcontent1 : ∀ i, i < k → inst[ip + 1 + i]? = some (Token.Decriment 1) := by
        intro i hi
        rw [show ip + 1 + i = ip + (1 + i) from by omega]
        exact hcontent (1 + i) (by omega)
      have hv1 : (mem.set mp ((v + 255) % 256))[mp]? = some ((v + 255) % 256) :=
        List.getElem?_set_eq_of_lt _ (by simpa using hmp)
      rw [ih mp (ip + 1) (mem.set mp ((v + 255) % 256)) inst lst inp out ((v + 255) % 256)
        hk0 hcontent1 (by omega) hv1]
      rw [List.set_set]
      rw [show ((v + 255) % 256 + 255 * k) % 256 = (v + 255 * (k + 1)) % 256 from by omega,
        show ip + 1 + k = ip + (k + 1) from by omega]

theorem not_open_of_wt (t : Token) (hw : wt t = 0) : ∀ a, t ≠ .Open a := by
  cases t <;> simp [wt] at hw ⊢

theorem not_close_of_wt (t : Token) (hw : wt t = 0) : ∀ a, t ≠ .Close a := by
  cases t <;> simp [wt] at hw ⊢

theorem resolve_other (l r : List Token) (hres : resolveInst l = some r)
    (n : Nat) (t : Token) (hl : l[n]? = some t) (hw : wt t = 0) : r[n]? = some t := by
  obtain ⟨_, hall⟩ := resolveInst_sound l r hres
  have h3 := (hall n).2.2
    (fun a ha => by
      rw [hl] at ha
      exact not_open_of_wt t hw a (by simpa using ha))
    (fun a ha => by
      rw [hl] at ha
      exact not_close_of_wt t hw a (by simpa using ha))
  rw [h3, hl]

theorem resolve_fwd_open (l r : List Token) (hres : resolveInst l = some r)
    (n a : Nat) (hl : l[n]? = some (.Open a)) :
    ∃ t, forward_ofset l n = some t ∧ r[n]? = some (.Open t) := by
  obtain ⟨_, hall⟩ := resolveInst_sound l r hres
  exact (hall n).1 a hl

theorem resolve_rev_close (l r : List Token) (hres : resolveInst l = some r)
    (n a : Nat) (hl : l[n]? = some (.Close a)) :
    ∃ t, rev_ofset l n = some t ∧ r[n]? = some (.Close t) := by
  obtain ⟨_, hall⟩ := resolveInst_sound l r hres
  exact (hall n).2.1 a hl

theorem resolve_inv_open (l r : List Token) (hres : resolveInst l = some r)
    (n t : Nat) (hr : r[n]? = some (.Open t)) :
    ∃ a, l[n]? = some (.Open a) ∧ forward_ofset l n = some t := by
  obtain ⟨_, hall⟩ := resolveInst_sound l r hres
  cases hget : l[n]? with
  | none =>
    have h3 := (hall n).2.2 (by simp [hget]) (by simp [hget])
    rw [hr, hget] at h3
    exact absurd h3 (by simp)
  | some u =>
    cases u with
    | Open a =>
      obtain ⟨j, hfwd, hro⟩ := (hall n).1 a hget
      rw [hr] at hro
      have hj : j = t := by simpa using hro.symm
      subst hj
      exact ⟨a, rfl, hfwd⟩
    | Close a =>
      obtain ⟨j, _, hro⟩ := (hall n).2.1 a hget
      rw [hr] at hro
      exact absurd hro (by simp)
    | Right a =>
      have h3 := (hall n).2.2 (by simp [hget]) (by simp [hget])
      rw [hr, hget] at h3
      exact absurd h3 (by simp)
    | Left a =>
      have h3 := (hall n).2.2 (by simp [hget]) (by simp [hget])
      rw [hr, hget] at h3
      exact absurd h3 (by simp)
    | Incriment a =>
      have h3 := (hall n).2.2 (by simp [hget]) (by simp [hget])
      rw [hr, hget] at h3
      exact absurd h3 (by simp)
    | Decriment a =>
      have h3 := (hall n).2.2 (by simp [hget]) (by simp [hget])
      rw [hr, hget] at h3
      exact absurd h3 (by simp)
    | Input =>
      have h3 := (hall n).2.2 (by simp [hget]) (by simp [hget])
      rw [hr, hget] at h3
      exact absurd h3 (by simp)
    | Output =>
      have h3 := (hall n).2.2 (by simp [hget]) (by simp [hget])
      rw [hr, hget] at h3
      exact absurd h3 (by simp)

theorem resolve_inv_close (l r : List Token) (hres : resolveInst l = some r)
    (n t : Nat) (hr : r[n]? = some (.Close t)) :
    ∃ a, l[n]? = some (.Close a) ∧ rev_ofset l n = some t := by
  obtain ⟨_, hall⟩ := resolveInst_sound l r hres
  cases hget : l[n]? with
  | none =>
    have h3 := (hall n).2.2 (by simp [hget]) (by simp [hget])
    rw [hr, hget] at h3
    exact absurd h3 (by simp)
  | some u =>
    cases u with
    | Close a =>
      obtain ⟨j, hrev, hro⟩ := (hall n).2.1 a hget
      rw [hr] at hro
      have hj : j = t := by simpa using hro.symm
      subst hj
      exact ⟨a, rfl, hrev⟩
    | Open a =>
      obtain ⟨j, _, hro⟩ := (hall n).1 a hget
      rw [hr] at hro
      exact absurd hro (by simp)
    | Right a =>
      have h3 := (hall n).2.2 (by simp [hget]) (by simp [hget])
      rw [hr, hget] at h3
      exact absurd h3 (by simp)
    | Left a =>
      have h3 := (hall n).2.2 (by simp [hget]) (by simp [hget])
      rw [hr, hget] at h3
      exact absurd h3 (by simp)
    | Incriment a =>
      have h3 := (hall n).2.2 (by simp [hget]) (by simp [hget])
      rw [hr, hget] at h3
      exact absurd h3 (by simp)
    | Decriment a =>
      have h3 := (hall n).2.2 (by simp [hget]) (by simp [hget])
      rw [hr, hget] at h3
      exact absurd h3 (by simp)
    | Input =>
      have h3 := (hall n).2.2 (by simp [hget]) (by simp [hget])
      rw [hr, hget] at h3
      exact absurd h3 (by simp)
    | Output =>
      have h3 := (hall n).2.2 (by simp [hget]) (by simp [hget])
      rw [hr, hget] at h3
      exact absurd h3 (by simp)

/-! Composition facts about `steps` and `run`. -/

theorem run_steps (j : Nat) :
    ∀ (c c' : Config) (n : Nat) (r : Config), steps j c = some c' →
      run n c = .halted r → j ≤ n ∧ run (n - j) c' = .halted r := by
  induction j with
  | zero =>
    intro c c' n r hs hr
    have hc : c' = c := by simpa [steps] using hs.symm
    subst hc
    simpa using hr
  | succ j ih =>
    intro c c' n r hs hr
    rw [steps] at hs
    split at hs
    · rename_i hcond
      cases hstep : step c with
      | none => rw [hstep] at hs; exact absurd hs (by simp)
      | some c1 =>
        rw [hstep] at hs
        cases n with
        | zero => rw [run] at hr; exact absurd hr (by simp)
        | succ n =>
          rw [run, if_pos hcond, hstep] at hr
          obtain ⟨h1, h2⟩ := ih c1 c' n r hs hr
          exact ⟨by omega, by rw [show n + 1 - (j + 1) = n - j from by omega]; exact h2⟩
    · exact absurd hs (by simp)

theorem steps_run (j : Nat) :
    ∀ (c c' : Config) (m : Nat) (r : Config), steps j c = some c' →
      run m c' = .halted r → run (j + m) c = .halted r := by
  induction j with
  | zero =>
    intro c c' m r hs hr
    have hc : c' = c := by simpa [steps] using hs.symm
    subst hc
    simpa using hr
  | succ j ih =>
    intro c c' m r hs hr
    rw [steps] at hs
    split at hs
    · rename_i hcond
      cases hstep : step c with
      | none => rw [hstep] at hs; exact absurd hs (by simp)
      | some c1 =>
        rw [hstep] at hs
        rw [show j + 1 + m = (j + m) + 1 from by omega, run, if_pos hcond, hstep]
        exact ih c1 c' m r hs hr
    · exact absurd hs (by simp)

theorem run_halted_inv (n : Nat) (c r : Config)
    (h : ¬ c.st.instptr < c.st.inst.length) (hr : run n c = .halted r) : r = c := by
  cases n with
  | zero => rw [run] at hr; exact absurd hr (by simp)
  | succ n =>
    rw [run, if_neg h] at hr
    simpa using hr.symm

theorem run_panic_no_halt (c : Config) (hrun : c.st.instptr < c.st.inst.length)
    (hstep : step c = none) : ∀ n r, run n c ≠ .halted r := by
  intro n r
  cases n with
  | zero => rw [run]; simp
  | succ n =>
    rw [run, if_pos hrun, hstep]
    simp

theorem resolve_inv_other (l r : List Token) (hres : resolveInst l = some r)
    (n : Nat) (t : Token) (hw : wt t = 0) (hr : r[n]? = some t) : l[n]? = some t := by
  obtain ⟨_, hall⟩ := resolveInst_sound l r hres
  cases hget : l[n]? with
  | none =>
    have h3 := (hall n).2.2 (by simp [hget]) (by simp [hget])
    rw [hr, hget] at h3
    exact absurd h3 (by simp)
  | some u =>
    by_cases hwu : wt u = 0
    · have h3 := (hall n).2.2
        (fun a ha => by
          rw [hget] at ha
          exact not_open_of_wt u hwu a (by simpa using ha))
        (fun a ha => by
          rw [hget] at ha
          exact not_close_of_wt u hwu a (by simpa using ha))
      rw [hr, hget] at h3
      have : t = u := by simpa using h3
      rw [this]
    · cases u with
      | Open a =>
        obtain ⟨j, _, hro⟩ := (hall n).1 a hget
        rw [hr] at hro
        have : t = .Open j := by simpa using hro
        rw [this] at hw
        simp [wt] at hw
      | Close a =>
        obtain ⟨j, _, hro⟩ := (hall n).2.1 a hget
        rw [hr] at hro
        have : t = .Close j := by simpa using hro
        rw [this] at hw
        simp [wt] at hw
      | Right a => simp [wt] at hwu
      | Left a => simp [wt] at hwu
      | Incriment a => simp [wt] at hwu
      | Decriment a => simp [wt] at hwu
      | Input => simp [wt] at hwu
      | Output => simp [wt] at hwu

theorem steps_one (c c' : Config) (hg : c.st.instptr < c.st.inst.length)
    (hs : step c = some c') : steps 1 c = some c' := by
  rw [steps, if_pos hg, hs]
  rfl

theorem blkStart_le_len (ds : List (Token × Nat)) (b : Nat) (hb : b ≤ ds.length) :
    blkStart ds b ≤ (uOf ds).length := by
  rw [← blkStart_length]
  exact blkStart_le ds b ds.length hb

theorem f_entry (ds : List (Token × Nat)) (b : Nat) (t : Token)
    (h : (ds.map Prod.fst)[b]? = some t) : ∃ p, ds[b]? = some p ∧ p.1 = t := by
  rw [List.getElem?_map] at h
  cases hb : ds[b]? with
  | none => rw [hb] at h; simp at h
  | some p =>
    rw [hb] at h
    exact ⟨p, rfl, by simpa using h⟩

theorem ru_block_content (ds : List (Token × Nat)) (ru : List Token)
    (hru : resolveInst (uOf ds) = some ru)
    (b : Nat) (p : Token × Nat) (hb : ds[b]? = some p) (t : Token)
    (hwt : wt t = 0) (hunf : unfoldTok p = List.replicate p.2 t) :
    ∀ o, o < p.2 → ru[blkStart ds b + o]? = some t := by
  intro o ho
  have hu := uOf_get ds b p o hb (by rw [hunf]; simpa using ho)
  rw [hunf] at hu
  have hrep : (List.replicate p.2 t)[o]? = some t := by
    rw [List.getElem?_replicate]
    simp [ho]
  rw [hrep] at hu
  exact resolve_other (uOf ds) ru hru _ t hu hwt

theorem mem_of_get (ds : List (Token × Nat)) (b : Nat) (p : Token × Nat)
    (h : ds[b]? = some p) : p ∈ ds := by
  obtain ⟨hb, hp⟩ := List.getElem?_eq_some.mp h
  rw [← hp]
  exact List.getElem_mem hb

/-- One iteration of the folded run is matched by a block of iterations of
the unfolded run: the simulation relation is preserved and at least one
unfolded iteration happens. -/
theorem sim_step (ds : List (Token × Nat)) (ru rf : List Token)
    (hg : ∀ p ∈ ds, GoodPair p)
    (hru : resolveInst (uOf ds) = some ru)
    (hrf : resolveInst (ds.map Prod.fst) = some rf)
    (cu cf cf' : Config) (hsim : SimRel ds ru rf cu cf)
    (hgrd : cf.st.instptr < cf.st.inst.length)
    (hstep : step cf = some cf') :
    ∃ j cu', 1 ≤ j ∧ steps j cu = some cu' ∧ SimRel ds ru rf cu' cf' := by
  obtain ⟨hinp, hout, hmp, hmem, hiu, hif, b, hble, hbf, hbu⟩ := hsim
  have hrul : ru.length = (uOf ds).length := (resolveInst_sound _ _ hru).1
  have hrfl : rf.length = ds.length := by
    have h := (resolveInst_sound _ _ hrf).1
    simpa using h
  obtain ⟨⟨mpf, ipu0, memf, ru1, lu⟩, inpf, outf⟩ := cu
  obtain ⟨⟨mpf0, ipf0, memf0, rf1, lf⟩, inpf0, outf0⟩ := cf
  dsimp only at hinp hout hmp hmem hiu hif hbf hbu hgrd
  symm at hiu hif hbf
  subst hinp hout hmp hmem hiu hif hbf hbu
  rw [hrfl] at hgrd
  have hbd : b < ds.length := hgrd
  cases hfb : rf[b]? with
  | none =>
    have hlb : rf.length ≤ b := List.getElem?_eq_none_iff.mp hfb
    omega
  | some t =>
    cases t with
    | Right m =>
      obtain ⟨p, hp, hp1⟩ := f_entry ds b _ (resolve_inv_other _ _ hrf b _ (by simp [wt]) hfb)
      obtain ⟨t0, n⟩ := p
      dsimp only at hp1
      subst hp1
      have hgp : m = n ∧ 1 ≤ n := hg (.Right m, n) (mem_of_get ds b _ hp)
      obtain ⟨hmn, hn1⟩ := hgp
      subst hmn
      have hcontent : ∀ i, i < m → ru[blkStart ds b + i]? = some (.Right 1) :=
        ru_block_content ds ru hru b (.Right m, m) hp (.Right 1) (by simp [wt])
          (by simp [unfoldTok])
      have hblk : blkStart ds (b + 1) = blkStart ds b + m := by
        rw [blkStart_succ ds b _ hp]
        simp [unfoldTok]
      have hlen : blkStart ds b + m ≤ ru.length := by
        rw [hrul, ← hblk]
        exact blkStart_le_len ds (b + 1) (by omega)
      have hcf' : cf' = ⟨⟨mpf + m, b + 1, grow memf (mpf + m), rf, lf⟩, inpf, outf⟩ := by
        rw [step_right _ m hfb, inc_data_eq] at hstep
        exact (Option.some.inj hstep).symm
      subst hcf'
      refine ⟨m, _, by omega,
        steps_right_block m mpf (blkStart ds b) memf ru lu inpf outf (by omega)
          hcontent hlen, ?_⟩
      exact ⟨rfl, rfl, rfl, rfl, rfl, rfl, b + 1, by omega, rfl, hblk.symm⟩
    | Left m =>
      obtain ⟨p, hp, hp1⟩ := f_entry ds b _ (resolve_inv_other _ _ hrf b _ (by simp [wt]) hfb)
      obtain ⟨t0, n⟩ := p
      dsimp only at hp1
      subst hp1
      have hgp : m = n ∧ 1 ≤ n := hg (.Left m, n) (mem_of_get ds b _ hp)
      obtain ⟨hmn, hn1⟩ := hgp
      subst hmn
      have hcontent : ∀ i, i < m → ru[blkStart ds b + i]? = some (.Left 1) :=
        ru_block_content ds ru hru b (.Left m, m) hp (.Left 1) (by simp [wt])
          (by simp [unfoldTok])
      have hblk : blkStart ds (b + 1) = blkStart ds b + m := by
        rw [blkStart_succ ds b _ hp]
        simp [unfoldTok]
      have hlen : blkStart ds b + m ≤ ru.length := by
        rw [hrul, ← hblk]
        exact blkStart_le_len ds (b + 1) (by omega)
      rw [step_left _ m hfb] at hstep
      rcases le_or_lt m mpf with hle | hlt
      · rw [dec_data_some _ m hle] at hstep
        have hcf' : cf' = ⟨⟨mpf - m, b + 1, memf, rf, lf⟩, inpf, outf⟩ :=
          (Option.some.inj hstep).symm
        subst hcf'
        refine ⟨m, _, by omega,
          steps_left_block m mpf (blkStart ds b) memf ru lu inpf outf hle
            hcontent hlen, ?_⟩
        exact ⟨rfl, rfl, rfl, rfl, rfl, rfl, b + 1, by omega, rfl, hblk.symm⟩
      · rw [dec_data_none _ m hlt] at hstep
        simp at hstep
    | Incriment m =>
      obtain ⟨p, hp, hp1⟩ := f_entry ds b _ (resolve_inv_other _ _ hrf b _ (by simp [wt]) hfb)
      obtain ⟨t0, n⟩ := p
      dsimp only at hp1
      subst hp1
      have hgp : m = n % 256 ∧ 1 ≤ n := hg (.Incriment m, n) (mem_of_get ds b _ hp)
      obtain ⟨hmn, hn1⟩ := hgp
      subst hmn
      have hcontent : ∀ i, i < n → ru[blkStart ds b + i]? = some (.Incriment 1) :=
        ru_block_content ds ru hru b (.Incriment (n % 256), n) hp (.Incriment 1)
          (by simp [wt]) (by simp [unfoldTok])
      have hblk : blkStart ds (b + 1) = blkStart ds b + n := by
        rw [blkStart_succ ds b _ hp]
        simp [unfoldTok]
      have hlen : blkStart ds b + n ≤ ru.length := by
        rw [hrul, ← hblk]
        exact blkStart_le_len ds (b + 1) (by omega)
      rw [step_incb _ (n % 256) hfb] at hstep
      cases hcell : memf[mpf]? with
      | none =>
        rw [incbyte_none _ (n % 256) hcell] at hstep
        simp at hstep
      | some v =>
        rw [incbyte_some _ (n % 256) v hcell] at hstep
        have hcf' : cf' =
            ⟨⟨mpf, b + 1, memf.set mpf ((v + n % 256) % 256), rf, lf⟩, inpf, outf⟩ :=
          (Option.some.inj hstep).symm
        subst hcf'
        refine ⟨n, _, by omega,
          steps_inc_block n mpf (blkStart ds b) memf ru lu inpf outf v (by omega)
            hcontent hlen hcell, ?_⟩
        refine ⟨rfl, rfl, rfl, ?_, rfl, rfl, b + 1, by omega, rfl, hblk.symm⟩
        rw [show (v + n) % 256 = (v + n % 256) % 256 from by omega]
    | Decriment m =>
      obtain ⟨p, hp, hp1⟩ := f_entry ds b _ (resolve_inv_other _ _ hrf b _ (by simp [wt]) hfb)
      obtain ⟨t0, n⟩ := p
      dsimp only at hp1
      subst hp1
      have hgp : m = n % 256 ∧ 1 ≤ n := hg (.Decriment m, n) (mem_of_get ds b _ hp)
      obtain ⟨hmn, hn1⟩ := hgp
      subst hmn
      have hcontent : ∀ i, i < n → ru[blkStart ds b + i]? = some (.Decriment 1) :=
        ru_block_content ds ru hru b (.Decriment (n % 256), n) hp (.Decriment 1)
          (by simp [wt]) (by simp [unfoldTok])
      have hblk : blkStart ds (b + 1) = blkStart ds b + n := by
        rw [blkStart_succ ds b _ hp]
        simp [unfoldTok]
      have hlen : blkStart ds b + n ≤ ru.length := by
        rw [hrul, ← hblk]
        exact blkStart_le_len ds (b + 1) (by omega)
      rw [step_decb _ (n % 256) hfb] at hstep
      cases hcell : memf[mpf]? with
      | none =>
        rw [decbyte_none _ (n % 256) hcell] at hstep
        simp at hstep
      | some v =>
        rw [decbyte_some _ (n % 256) v hcell] at hstep
        have hcf' : cf' =
            ⟨⟨mpf, b + 1, memf.set mpf (wsub8 v (n % 256)), rf, lf⟩, inpf, outf⟩ :=
          (Option.some.inj hstep).symm
        subst hcf'
        refine ⟨n, _, by omega,
          steps_dec_block n mpf (blkStart ds b) memf ru lu inpf outf v (by omega)
            hcontent hlen hcell, ?_⟩
        refine ⟨rfl, rfl, rfl, ?_, rfl, rfl, b + 1, by omega, rfl, hblk.symm⟩
        rw [show (v + 255 * n) % 256 = wsub8 v (n % 256) from by unfold wsub8; omega]
    | Output =>
      obtain ⟨p, hp, hp1⟩ := f_entry ds b _ (resolve_inv_other _ _ hrf b _ (by simp [wt]) hfb)
      obtain ⟨t0, n⟩ := p
      dsimp only at hp1
      subst hp1
      have hgp : n = 1 := hg (.Output, n) (mem_of_get ds b _ hp)
      subst hgp
      have hro : ru[blkStart ds b]? = some .Output := by
        have h := ru_block_content ds ru hru b (.Output, 1) hp .Output (by simp [wt])
          (by simp [unfoldTok]) 0 (by omega)
        simpa using h
      have hblk : blkStart ds (b + 1) = blkStart ds b + 1 := by
        rw [blkStart_succ ds b _ hp]
        simp [unfoldTok]
      have hlen : blkStart ds b + 1 ≤ ru.length := by
        rw [hrul, ← hblk]
        exact blkStart_le_len ds (b + 1) (by omega)
      rw [step_outb _ hfb] at hstep
      cases hcell : memf[mpf]? with
      | none =>
        rw [outbyte_none _ hcell] at hstep
        simp at hstep
      | some v =>
        rw [outbyte_some _ v hcell] at hstep
        have hcf' : cf' = ⟨⟨mpf, b + 1, memf, rf, lf⟩, inpf, outf ++ utf8Enc v⟩ :=
          (Option.some.inj hstep).symm
        subst hcf'
        have hsu : step (⟨⟨mpf, blkStart ds b, memf, ru, lu⟩, inpf, outf⟩ : Config) =
            some (⟨⟨mpf, blkStart ds b + 1, memf, ru, lu⟩, inpf,
              outf ++ utf8Enc v⟩ : Config) := by
          rw [step_outb _ hro, outbyte_some _ v hcell]
          rfl
        refine ⟨1, _, le_refl 1, steps_one _ _ (show blkStart ds b < ru.length from by
          omega) hsu, ?_⟩
        exact ⟨rfl, rfl, rfl, rfl, rfl, rfl, b + 1, by omega, rfl, hblk.symm⟩
    | Input =>
      obtain ⟨p, hp, hp1⟩ := f_entry ds b _ (resolve_inv_other _ _ hrf b _ (by simp [wt]) hfb)
      obtain ⟨t0, n⟩ := p
      dsimp only at hp1
      subst hp1
      have hgp : n = 1 := hg (.Input, n) (mem_of_get ds b _ hp)
      subst hgp
      have hro : ru[blkStart ds b]? = some .Input := by
        have h := ru_block_content ds ru hru b (.Input, 1) hp .Input (by simp [wt])
          (by simp [unfoldTok]) 0 (by omega)
        simpa using h
      have hblk : blkStart ds (b + 1) = blkStart ds b + 1 := by
        rw [blkStart_succ ds b _ hp]
        simp [unfoldTok]
      have hlen : blkStart ds b + 1 ≤ ru.length := by
        rw [hrul, ← hblk]
        exact blkStart_le_len ds (b + 1) (by omega)
      rw [step_inb _ hfb] at hstep
      cases hcell : memf[mpf]? with
      | none =>
        rw [inbyte_none _ hcell] at hstep
        simp at hstep
      | some v =>
        rw [inbyte_some _ v hcell] at hstep
        have hcf' : cf' = ⟨⟨mpf, b + 1, memf.set mpf (inVal inpf.head?), rf, lf⟩,
            inpf.tail, outf⟩ :=
          (Option.some.inj hstep).symm
        subst hcf'
        have hsu : step (⟨⟨mpf, blkStart ds b, memf, ru, lu⟩, inpf, outf⟩ : Config) =
            some (⟨⟨mpf, blkStart ds b + 1, memf.set mpf (inVal inpf.head?), ru, lu⟩,
              inpf.tail, outf⟩ : Config) := by
          rw [step_inb _ hro, inbyte_some _ v hcell]
          rfl
        refine ⟨1, _, le_refl 1, steps_one _ _ (show blkStart ds b < ru.length from by
          omega) hsu, ?_⟩
        exact ⟨rfl, rfl, rfl, rfl, rfl, rfl, b + 1, by omega, rfl, hblk.symm⟩
    | Open a =>
      obtain ⟨a0, hfob, hfwdf⟩ := resolve_inv_open _ _ hrf b a hfb
      obtain ⟨hfwdu, c0, hclosej⟩ := fwd_transfer ds hg b a a0 hfob hfwdf
      obtain ⟨pb, hpb, hpb1, hpbs, hbsucc, hub⟩ :=
        bracket_block ds hg b (.Open a0) hfob (by simp [wt])
      obtain ⟨t1, hfw1, hruo⟩ := resolve_fwd_open _ _ hru _ a0 hub
      have ht1 : t1 = blkStart ds a := by
        rw [hfwdu] at hfw1
        exact (Option.some.inj hfw1).symm
      subst ht1
      obtain ⟨pj, hpj, hpj1, hpjs, hjsucc, huj⟩ :=
        bracket_block ds hg a (.Close c0) hclosej (by simp [wt])
      have haj : a < ds.length := by
        have h := (List.getElem?_eq_some.mp hclosej).1
        simpa using h
      have hlen : blkStart ds b + 1 ≤ ru.length := by
        rw [hrul, ← hbsucc]
        exact blkStart_le_len ds (b + 1) (by omega)
      cases hcell : memf[mpf]? with
      | none =>
        rw [step_open_oob _ a hfb hcell] at hstep
        exact absurd hstep (by simp)
      | some v =>
        by_cases hv : v = 0
        · subst hv
          rw [step_open_zero _ a hfb hcell] at hstep
          have hcf' : cf' = ⟨⟨mpf, a + 1, memf, rf, lf⟩, inpf, outf⟩ :=
            (Option.some.inj hstep).symm
          subst hcf'
          have hsu : step (⟨⟨mpf, blkStart ds b, memf, ru, lu⟩, inpf, outf⟩ : Config) =
              some (⟨⟨mpf, blkStart ds a + 1, memf, ru, lu⟩, inpf, outf⟩ : Config) := by
            rw [step_open_zero _ (blkStart ds a) hruo hcell]
            rfl
          refine ⟨1, _, le_refl 1, steps_one _ _ (show blkStart ds b < ru.length from by
            omega) hsu, ?_⟩
          exact ⟨rfl, rfl, rfl, rfl, rfl, rfl, a + 1, by omega, rfl, hjsucc.symm⟩
        · rw [step_open_nz _ a v hfb hcell hv] at hstep
          have hcf' : cf' = ⟨⟨mpf, b + 1, memf, rf, lf⟩, inpf, outf⟩ :=
            (Option.some.inj hstep).symm
          subst hcf'
          have hsu : step (⟨⟨mpf, blkStart ds b, memf, ru, lu⟩, inpf, outf⟩ : Config) =
              some (⟨⟨mpf, blkStart ds b + 1, memf, ru, lu⟩, inpf, outf⟩ : Config) := by
            rw [step_open_nz _ (blkStart ds a) v hruo hcell hv]
            rfl
          refine ⟨1, _, le_refl 1, steps_one _ _ (show blkStart ds b < ru.length from by
            omega) hsu, ?_⟩
          exact ⟨rfl, rfl, rfl, rfl, rfl, rfl, b + 1, by omega, rfl, hbsucc.symm⟩
    | Close a =>
      obtain ⟨a0, hfcb, hrevf⟩ := resolve_inv_close _ _ hrf b a hfb
      obtain ⟨hrevu, c0, hopeni⟩ := rev_transfer ds hg b a a0 hfcb hrevf
      obtain ⟨pb, hpb, hpb1, hpbs, hbsucc, hub⟩ :=
        bracket_block ds hg b (.Close a0) hfcb (by simp [wt])
      obtain ⟨t1, hrv1, hruc⟩ := resolve_rev_close _ _ hru _ a0 hub
      have ht1 : t1 = blkStart ds a := by
        rw [hrevu] at hrv1
        exact (Option.some.inj hrv1).symm
      subst ht1
      have hai : a < ds.length := by
        have h := (List.getElem?_eq_some.mp hopeni).1
        simpa using h
      have hlen : blkStart ds b + 1 ≤ ru.length := by
        rw [hrul, ← hbsucc]
        exact blkStart_le_len ds (b + 1) (by omega)
      cases hcell : memf[mpf]? with
      | none =>
        rw [step_close_oob _ a hfb hcell] at hstep
        exact absurd hstep (by simp)
      | some v =>
        by_cases hv : v = 0
        · subst hv
          rw [step_close_zero _ a hfb hcell] at hstep
          have hcf' : cf' = ⟨⟨mpf, b + 1, memf, rf, lf⟩, inpf, outf⟩ :=
            (Option.some.inj hstep).symm
          subst hcf'
          have hsu : step (⟨⟨mpf, blkStart ds b, memf, ru, lu⟩, inpf, outf⟩ : Config) =
              some (⟨⟨mpf, blkStart ds b + 1, memf, ru, lu⟩, inpf, outf⟩ : Config) := by
            rw [step_close_zero _ (blkStart ds a) hruc hcell]
            rfl
          refine ⟨1, _, le_refl 1, steps_one _ _ (show blkStart ds b < ru.length from by
            omega) hsu, ?_⟩
          exact ⟨rfl, rfl, rfl, rfl, rfl, rfl, b + 1, by omega, rfl, hbsucc.symm⟩
        · rw [step_close_nz _ a v hfb hcell hv] at hstep
          have hcf' : cf' = ⟨⟨mpf, a, memf, rf, lf⟩, inpf, outf⟩ :=
            (Option.some.inj hstep).symm
          subst hcf'
          have hsu : step (⟨⟨mpf, blkStart ds b, memf, ru, lu⟩, inpf, outf⟩ : Config) =
              some (⟨⟨mpf, blkStart ds a, memf, ru, lu⟩, inpf, outf⟩ : Config) := by
            rw [step_close_nz _ (blkStart ds a) v hruc hcell hv]
            rfl
          refine ⟨1, _, le_refl 1, steps_one _ _ (show blkStart ds b < ru.length from by
            omega) hsu, ?_⟩
          exact ⟨rfl, rfl, rfl, rfl, rfl, rfl, a, by omega, rfl, rfl⟩

/-- A panic in one iteration of the folded run is matched by a reachable
panic of the unfolded run. -/
theorem sim_panic (ds : List (Token × Nat)) (ru rf : List Token)
    (hg : ∀ p ∈ ds, GoodPair p)
    (hru : resolveInst (uOf ds) = some ru)
    (hrf : resolveInst (ds.map Prod.fst) = some rf)
    (cu cf : Config) (hsim : SimRel ds ru rf cu cf)
    (hgrd : cf.st.instptr < cf.st.inst.length)
    (hstep : step cf = none) :
    ∃ j cu', steps j cu = some cu' ∧
      cu'.st.instptr < cu'.st.inst.length ∧ step cu' = none := by
  obtain ⟨hinp, hout, hmp, hmem, hiu, hif, b, hble, hbf, hbu⟩ := hsim
  have hrul : ru.length = (uOf ds).length := (resolveInst_sound _ _ hru).1
  have hrfl : rf.length = ds.length := by
    have h := (resolveInst_sound _ _ hrf).1
    simpa using h
  obtain ⟨⟨mpf, ipu0, memf, ru1, lu⟩, inpf, outf⟩ := cu
  obtain ⟨⟨mpf0, ipf0, memf0, rf1, lf⟩, inpf0, outf0⟩ := cf
  dsimp only at hinp hout hmp hmem hiu hif hbf hbu hgrd
  symm at hiu hif hbf
  subst hinp hout hmp hmem hiu hif hbf hbu
  rw [hrfl] at hgrd
  have hbd : b < ds.length := hgrd
  cases hfb : rf[b]? with
  | none =>
    have hlb : rf.length ≤ b := List.getElem?_eq_none_iff.mp hfb
    omega
  | some t =>
    cases t with
    | Right m =>
      rw [step_right _ m hfb] at hstep
      exact absurd hstep (by simp)
    | Left m =>
      obtain ⟨p, hp, hp1⟩ := f_entry ds b _ (resolve_inv_other _ _ hrf b _ (by simp [wt]) hfb)
      obtain ⟨t0, n⟩ := p
      dsimp only at hp1
      subst hp1
      have hgp : m = n ∧ 1 ≤ n := hg (.Left m, n) (mem_of_get ds b _ hp)
      obtain ⟨hmn, hn1⟩ := hgp
      subst hmn
      have hcontent : ∀ i, i < m → ru[blkStart ds b + i]? = some (.Left 1) :=
        ru_block_content ds ru hru b (.Left m, m) hp (.Left 1) (by simp [wt])
          (by simp [unfoldTok])
      have hblk : blkStart ds (b + 1) = blkStart ds b + m := by
        rw [blkStart_succ ds b _ hp]
        simp [unfoldTok]
      have hlen : blkStart ds b + m ≤ ru.length := by
        rw [hrul, ← hblk]
        exact blkStart_le_len ds (b + 1) (by omega)
      rw [step_left _ m hfb] at hstep
      rcases le_or_lt m mpf with hle | hlt
      · rw [dec_data_some _ m hle] at hstep
        exact absurd hstep (by simp)
      · refine ⟨mpf, _, steps_left_block mpf mpf (blkStart ds b) memf ru lu inpf outf
          (le_refl mpf) (fun i hi => hcontent i (by omega)) (by omega), ?_, ?_⟩
        · show blkStart ds b + mpf < ru.length
          omega
        · have hat : ru[blkStart ds b + mpf]? = some (.Left 1) := hcontent mpf hlt
          rw [step_left _ 1 hat, dec_data_none _ 1 (show mpf - mpf < 1 from by omega)]
          rfl
    | Incriment m =>
      obtain ⟨p, hp, hp1⟩ := f_entry ds b _ (resolve_inv_other _ _ hrf b _ (by simp [wt]) hfb)
      obtain ⟨t0, n⟩ := p
      dsimp only at hp1
      subst hp1
      have hgp : m = n % 256 ∧ 1 ≤ n := hg (.Incriment m, n) (mem_of_get ds b _ hp)
      obtain ⟨hmn, hn1⟩ := hgp
      subst hmn
      have hcontent : ∀ i, i < n → ru[blkStart ds b + i]? = some (.Incriment 1) :=
        ru_block_content ds ru hru b (.Incriment (n % 256), n) hp (.Incriment 1)
          (by simp [wt]) (by simp [unfoldTok])
      have hblk : blkStart ds (b + 1) = blkStart ds b + n := by
        rw [blkStart_succ ds b _ hp]
        simp [unfoldTok]
      have hlen : blkStart ds b + n ≤ ru.length := by
        rw [hrul, ← hblk]
        exact blkStart_le_len ds (b + 1) (by omega)
      rw [step_incb _ (n % 256) hfb] at hstep
      cases hcell : memf[mpf]? with
      | some v =>
        rw [incbyte_some _ (n % 256) v hcell] at hstep
        exact absurd hstep (by simp)
      | none =>
        refine ⟨0, _, rfl, ?_, ?_⟩
        · show blkStart ds b < ru.length
          omega
        · have hat : ru[blkStart ds b]? = some (.Incriment 1) := by
            have h := hcontent 0 (by omega)
            simpa using h
          rw [step_incb _ 1 hat, incbyte_none _ 1 hcell]
          rfl
    | Decriment m =>
      obtain ⟨p, hp, hp1⟩ := f_entry ds b _ (resolve_inv_other _ _ hrf b _ (by simp [wt]) hfb)
      obtain ⟨t0, n⟩ := p
      dsimp only at hp1
      subst hp1
      have hgp : m = n % 256 ∧ 1 ≤ n := hg (.Decriment m, n) (mem_of_get ds b _ hp)
      obtain ⟨hmn, hn1⟩ := hgp
      subst hmn
      have hcontent : ∀ i, i < n → ru[blkStart ds b + i]? = some (.Decriment 1) :=
        ru_block_content ds ru hru b (.Decriment (n % 256), n) hp (.Decriment 1)
          (by simp [wt]) (by simp [unfoldTok])
      have hblk : blkStart ds (b + 1) = blkStart ds b + n := by
        rw [blkStart_succ ds b _ hp]
        simp [unfoldTok]
      have hlen : blkStart ds b + n ≤ ru.length := by
        rw [hrul, ← hblk]
        exact blkStart_le_len ds (b + 1) (by omega)
      rw [step_decb _ (n % 256) hfb] at hstep
      cases hcell : memf[mpf]? with
      | some v =>
        rw [decbyte_some _ (n % 256) v hcell] at hstep
        exact absurd hstep (by simp)
      | none =>
        refine ⟨0, _, rfl, ?_, ?_⟩
        · show blkStart ds b < ru.length
          omega
        · have hat : ru[blkStart ds b]? = some (.Decriment 1) := by
            have h := hcontent 0 (by omega)
            simpa using h
          rw [step_decb _ 1 hat, decbyte_none _ 1 hcell]
          rfl
    | Output =>
      obtain ⟨p, hp, hp1⟩ := f_entry ds b _ (resolve_inv_other _ _ hrf b _ (by simp [wt]) hfb)
      obtain ⟨t0, n⟩ := p
      dsimp only at hp1
      subst hp1
      have hgp : n = 1 := hg (.Output, n) (mem_of_get ds b _ hp)
      subst hgp
      have hro : ru[blkStart ds b]? = some .Output := by
        have h := ru_block_content ds ru hru b (.Output, 1) hp .Output (by simp [wt])
          (by simp [unfoldTok]) 0 (by omega)
        simpa using h
      have hblk : blkStart ds (b + 1) = blkStart ds b + 1 := by
        rw [blkStart_succ ds b _ hp]
        simp [unfoldTok]
      have hlen : blkStart ds b + 1 ≤ ru.length := by
        rw [hrul, ← hblk]
        exact blkStart_le_len ds (b + 1) (by omega)
      rw [step_outb _ hfb] at hstep
      cases hcell : memf[mpf]? with
      | some v =>
        rw [outbyte_some _ v hcell] at hstep
        exact absurd hstep (by simp)
      | none =>
        refine ⟨0, _, rfl, ?_, ?_⟩
        · show blkStart ds b < ru.length
          omega
        · rw [step_outb _ hro, outbyte_none _ hcell]
          rfl
    | Input =>
      obtain ⟨p, hp, hp1⟩ := f_entry ds b _ (resolve_inv_other _ _ hrf b _ (by simp [wt]) hfb)
      obtain ⟨t0, n⟩ := p
      dsimp only at hp1
      subst hp1
      have hgp : n = 1 := hg (.Input, n) (mem_of_get ds b _ hp)
      subst hgp
      have hri : ru[blkStart ds b]? = some .Input := by
        have h := ru_block_content ds ru hru b (.Input, 1) hp .Input (by simp [wt])
          (by simp [unfoldTok]) 0 (by omega)
        simpa using h
      have hblk : blkStart ds (b + 1) = blkStart ds b + 1 := by
        rw [blkStart_succ ds b _ hp]
        simp [unfoldTok]
      have hlen : blkStart ds b + 1 ≤ ru.length := by
        rw [hrul, ← hblk]
        exact blkStart_le_len ds (b + 1) (by omega)
      rw [step_inb _ hfb] at hstep
      cases hcell : memf[mpf]? with
      | some v =>
        rw [inbyte_some _ v hcell] at hstep
        exact absurd hstep (by simp)
      | none =>
        refine ⟨0, _, rfl, ?_, ?_⟩
        · show blkStart ds b < ru.length
          omega
        · rw [step_inb _ hri, inbyte_none _ hcell]
          rfl
    | Open a =>
      obtain ⟨a0, hfob, hfwdf⟩ := resolve_inv_open _ _ hrf b a hfb
      obtain ⟨pb, hpb, hpb1, hpbs, hbsucc, hub⟩ :=
        bracket_block ds hg b (.Open a0) hfob (by simp [wt])
      obtain ⟨t1, hfw1, hruo⟩ := resolve_fwd_open _ _ hru _ a0 hub
      have hlen : blkStart ds b + 1 ≤ ru.length := by
        rw [hrul, ← hbsucc]
        exact blkStart_le_len ds (b + 1) (by omega)
      cases hcell : memf[mpf]? with
      | some v =>
        by_cases hv : v = 0
        · subst hv
          rw [step_open_zero _ a hfb hcell] at hstep
          exact absurd hstep (by simp)
        · rw [step_open_nz _ a v hfb hcell hv] at hstep
          exact absurd hstep (by simp)
      | none =>
        refine ⟨0, _, rfl, ?_, ?_⟩
        · show blkStart ds b < ru.length
          omega
        · exact step_open_oob _ t1 hruo hcell
    | Close a =>
      obtain ⟨a0, hfcb, hrevf⟩ := resolve_inv_close _ _ hrf b a hfb
      obtain ⟨pb, hpb, hpb1, hpbs, hbsucc, hub⟩ :=
        bracket_block ds hg b (.Close a0) hfcb (by simp [wt])
      obtain ⟨t1, hrv1, hruc⟩ := resolve_rev_close _ _ hru _ a0 hub
      have hlen : blkStart ds b + 1 ≤ ru.length := by
        rw [hrul, ← hbsucc]
        exact blkStart_le_len ds (b + 1) (by omega)
      cases hcell : memf[mpf]? with
      | some v =>
        by_cases hv : v = 0
        · subst hv
          rw [step_close_zero _ a hfb hcell] at hstep
          exact absurd hstep (by simp)
        · rw [step_close_nz _ a v hfb hcell hv] at hstep
          exact absurd hstep (by simp)
      | none =>
        refine ⟨0, _, rfl, ?_, ?_⟩
        · show blkStart ds b < ru.length
          omega
        · exact step_close_oob _ t1 hruc hcell

/-- If the folded run halts, the unfolded run halts with the same I/O and
tape. -/
theorem sim_run_fwd (ds : List (Token × Nat)) (ru rf : List Token)
    (hg : ∀ p ∈ ds, GoodPair p)
    (hru : resolveInst (uOf ds) = some ru)
    (hrf : resolveInst (ds.map Prod.fst) = some rf) (n : Nat) :
    ∀ (cu cf rfr : Config), SimRel ds ru rf cu cf → run n cf = .halted rfr →
      ∃ m rur, run m cu = .halted rur ∧ SimRel ds ru rf rur rfr := by
  induction n with
  | zero =>
    intro cu cf rfr _ hr
    rw [run] at hr
    exact absurd hr (by simp)
  | succ n ih =>
    intro cu cf rfr hsim hr
    rw [run] at hr
    by_cases hgrd : cf.st.instptr < cf.st.inst.length
    · rw [if_pos hgrd] at hr
      cases hstep : step cf with
      | none =>
        rw [hstep] at hr
        exact absurd hr (by simp)
      | some cf1 =>
        rw [hstep] at hr
        obtain ⟨j, cu1, hj1, hsteps, hsim1⟩ :=
          sim_step ds ru rf hg hru hrf cu cf cf1 hsim hgrd hstep
        obtain ⟨m, rur, hrm, hsimr⟩ := ih cu1 cf1 rfr hsim1 hr
        exact ⟨j + m, rur, steps_run j cu cu1 m rur hsteps hrm, hsimr⟩
    · rw [if_neg hgrd] at hr
      have hrfr : rfr = cf := by simpa using hr.symm
      subst hrfr
      obtain ⟨hinp, hout, hmp, hmem, hiu, hif, b, hble, hbf, hbu⟩ := hsim
      have hrul : ru.length = (uOf ds).length := (resolveInst_sound _ _ hru).1
      have hrfl : rf.length = ds.length := by
        have h := (resolveInst_sound _ _ hrf).1
        simpa using h
      rw [hif, hbf] at hgrd
      have hb : b = ds.length := by omega
      have hcu : ¬ cu.st.instptr < cu.st.inst.length := by
        rw [hiu, hbu, hb, blkStart_length]
        omega
      refine ⟨1, cu, ?_, ?_⟩
      · rw [run, if_neg hcu]
      · exact ⟨hinp, hout, hmp, hmem, hiu, hif, b, hble, hbf, hbu⟩

/-- If the unfolded run halts, the folded run halts with the same I/O and
tape. -/
theorem sim_run_bwd (ds : List (Token × Nat)) (ru rf : List Token)
    (hg : ∀ p ∈ ds, GoodPair p)
    (hru : resolveInst (uOf ds) = some ru)
    (hrf : resolveInst (ds.map Prod.fst) = some rf) (N : Nat) :
    ∀ (n : Nat), n ≤ N → ∀ (cu cf rur : Config), SimRel ds ru rf cu cf →
      run n cu = .halted rur →
      ∃ m rfr, run m cf = .halted rfr ∧ SimRel ds ru rf rur rfr := by
  induction N with
  | zero =>
    intro n hn cu cf rur _ hr
    have hn0 : n = 0 := by omega
    subst hn0
    rw [run] at hr
    exact absurd hr (by simp)
  | succ N ihN =>
    intro n hn cu cf rur hsim hr
    by_cases hgrd : cf.st.instptr < cf.st.inst.length
    · cases hstep : step cf with
      | none =>
        obtain ⟨j, cu1, hsteps, hgrd1, hstep1⟩ :=
          sim_panic ds ru rf hg hru hrf cu cf hsim hgrd hstep
        obtain ⟨hjn, hr1⟩ := run_steps j cu cu1 n rur hsteps hr
        exact absurd hr1 (run_panic_no_halt cu1 hgrd1 hstep1 _ _)
      | some cf1 =>
        obtain ⟨j, cu1, hj1, hsteps, hsim1⟩ :=
          sim_step ds ru rf hg hru hrf cu cf cf1 hsim hgrd hstep
        obtain ⟨hjn, hr1⟩ := run_steps j cu cu1 n rur hsteps hr
        have hnz : 0 < n := by
          rcases Nat.eq_zero_or_pos n with h0 | h0
          · subst h0
            rw [run] at hr
            exact absurd hr (by simp)
          · exact h0
        obtain ⟨m, rfr, hrm, hsimr⟩ := ihN (n - j) (by omega) cu1 cf1 rur hsim1 hr1
        refine ⟨1 + m, rfr, ?_, hsimr⟩
        exact steps_run 1 cf cf1 m rfr (steps_one cf cf1 hgrd hstep) hrm
    · obtain ⟨hinp, hout, hmp, hmem, hiu, hif, b, hble, hbf, hbu⟩ := hsim
      have hrul : ru.length = (uOf ds).length := (resolveInst_sound _ _ hru).1
      have hrfl : rf.length = ds.length := by
        have h := (resolveInst_sound _ _ hrf).1
        simpa using h
      have hgrd2 : ¬ cf.st.instptr < cf.st.inst.length := hgrd
      rw [hif, hbf] at hgrd2
      have hb : b = ds.length := by omega
      have hcu : ¬ cu.st.instptr < cu.st.inst.length := by
        rw [hiu, hbu, hb, blkStart_length]
        omega
      have hrur : rur = cu := run_halted_inv n cu rur hcu hr
      subst hrur
      refine ⟨1, cf, ?_, ?_⟩
      · rw [run, if_neg hgrd]
      · exact ⟨hinp, hout, hmp, hmem, hiu, hif, b, hble, hbf, hbu⟩

/-- C1: folding is behavior-preserving.  For every source program and every
input stream, with both the unfolded lexer output and the folder's output
taken through the jump resolver, the two runs simulate each other: the
folded run halts exactly when the unfolded run halts, and the final
configurations carry byte-identical output, identical tape contents and the
same data pointer. -/
theorem C1_folding_behavior_preserving (src : List Nat) (inp : List (Option Nat))
    (ru rf : List Token)
    (hru : resolveInst (lex src) = some ru)
    (hrf : resolveInst (foldInst (lex src)) = some rf) :
    (∀ rfr, Halts (initConfig ⟨0, 0, [0], rf, (lex src).length⟩ inp) rfr →
      ∃ rur, Halts (initConfig ⟨0, 0, [0], ru, (lex src).length⟩ inp) rur ∧
        rur.out = rfr.out ∧ rur.st.memory = rfr.st.memory ∧
        rur.st.memptr = rfr.st.memptr) ∧
    (∀ rur, Halts (initConfig ⟨0, 0, [0], ru, (lex src).length⟩ inp) rur →
      ∃ rfr, Halts (initConfig ⟨0, 0, [0], rf, (lex src).length⟩ inp) rfr ∧
        rur.out = rfr.out ∧ rur.st.memory = rfr.st.memory ∧
        rur.st.memptr = rfr.st.memptr) := by
  obtain ⟨ds, hg, hfold, huof⟩ := fold_decomp (lex src) (lex_unit src)
  have hru' : resolveInst (uOf ds) = some ru := by rw [huof]; exact hru
  have hrf' : resolveInst (ds.map Prod.fst) = some rf := by rw [← hfold]; exact hrf
  have hsim0 : SimRel ds ru rf (initConfig ⟨0, 0, [0], ru, (lex src).length⟩ inp)
      (initConfig ⟨0, 0, [0], rf, (lex src).length⟩ inp) :=
    ⟨rfl, rfl, rfl, rfl, rfl, rfl, 0, Nat.zero_le _, rfl, (blkStart_zero ds).symm⟩
  constructor
  · intro rfr hh
    obtain ⟨n, hn⟩ := hh
    obtain ⟨m, rur, hrm, hsimr⟩ := sim_run_fwd ds ru rf hg hru' hrf' n _ _ rfr hsim0 hn
    obtain ⟨hinp, hout, hmp, hmem, h5, h6, b, h7, h8, h9⟩ := hsimr
    exact ⟨rur, ⟨m, hrm⟩, hout, hmem, hmp⟩
  · intro rur hh
    obtain ⟨n, hn⟩ := hh
    obtain ⟨m, rfr, hrm, hsimr⟩ :=
      sim_run_bwd ds ru rf hg hru' hrf' n n (le_refl n) _ _ rur hsim0 hn
    obtain ⟨hinp, hout, hmp, hmem, h5, h6, b, h7, h8, h9⟩ := hsimr
    exact ⟨rfr, ⟨m, hrm⟩, hout, hmem, hmp⟩

/-- Witness for C1: the two-instruction program `++` folds to a single
`Incriment 2`; both pipelines resolve, and the instantiated theorem relates
the two runs. -/
theorem C1_folding_behavior_preserving_witness :
    (∀ rfr, Halts (initConfig ⟨0, 0, [0], [Token.Incriment 2],
        (lex [43, 43]).length⟩ []) rfr →
      ∃ rur, Halts (initConfig ⟨0, 0, [0], [Token.Incriment 1, Token.Incriment 1],
          (lex [43, 43]).length⟩ []) rur ∧
        rur.out = rfr.out ∧ rur.st.memory = rfr.st.memory ∧
        rur.st.memptr = rfr.st.memptr) ∧
    (∀ rur, Halts (initConfig ⟨0, 0, [0], [Token.Incriment 1, Token.Incriment 1],
        (lex [43, 43]).length⟩ []) rur →
      ∃ rfr, Halts (initConfig ⟨0, 0, [0], [Token.Incriment 2],
          (lex [43, 43]).length⟩ []) rfr ∧
        rur.out = rfr.out ∧ rur.st.memory = rfr.st.memory ∧
        rur.st.memptr = rfr.st.memptr) :=
  C1_folding_behavior_preserving [43, 43] [] [.Incriment 1, .Incriment 1]
    [.Incriment 2] (by decide) (by decide)
